import Mathlib

/-!
# r34dl: the download dispatcher of `main.go`

A shallow embedding of `main.go` and proofs about it.

* Go strings are sequences of symbols; the code only ever compares a symbol
  with `/` or `.` and copies it, so a string is modelled as a `List Char`.
  The functions of Go's standard library that `getSavePath` calls
  (`strconv.Itoa`, `path.Ext`, `path.Join`, `path.Clean`) are embedded with it.
* Go's `int` values that are counters, indices or lengths are `Nat`; values
  that may be negative (`Post.ID`, the `-concurrents` and `-limit` flags and
  `nlimit`) are `Int`. No value of the program leaves the range of a 64-bit
  `int` on the inputs the theorems are about.
* The goroutines of `BeginDownload` and `work` are modelled as a transition
  system over `State`. One step is one load or store of a field of the shared
  `workState`, one local computation (a call of `downloadPost` included), or
  one rendezvous of a send and a receive on the unbuffered channel `wc`; any
  sender may meet any receiver, as on a Go channel. A panic in a goroutine
  ends the process: the workers are killed and no step follows. Loads and stores take
  effect in the order of the schedule. A schedule is a list of such steps,
  and "every interleaving" is "every schedule".
* The fetch loop of `main` is a function of the page source `GetPosts`.
-/

namespace R34dl

/-! ## Strings, `strconv.Itoa`, `path.Ext`, `path.Clean`, `path.Join` -/

/-- A Go string. -/
abbrev Str := List Char

/-- The two fields of `Post` that the downloader reads. -/
structure Post where
  ID : Int
  FileURL : Str
deriving DecidableEq

/-- Go's `strconv.Itoa`: the decimal digits of the absolute value, after a
minus sign for a negative number. -/
def Itoa (i : Int) : Str :=
  if i < 0 then '-' :: Nat.toDigits 10 i.natAbs else Nat.toDigits 10 i.natAbs

/-- The loop of Go's `path.Ext`, walking from the last symbol of the path to
the first: `rev` is the part still to visit (last symbol first), `acc` the
part already visited. -/
def extLoop : Str → Str → Str
  | [], _ => []
  | c :: rev, acc =>
    if c = '/' then []
    else if c = '.' then c :: acc
    else extLoop rev (c :: acc)

/-- Go's `path.Ext`: the suffix starting at the last dot of the last
slash-separated element, empty when that element has no dot. -/
def Ext (path : Str) : Str := extLoop path.reverse []

/-- The test `r == n || path[r] == '/'` of `path.Clean`, on the rest of the
path from position `r`. -/
def atElemEnd : Str → Bool
  | [] => true
  | c :: _ => c == '/'

/-- The backtracking of `path.Clean` at a `..` element, on the reversed
output buffer: `out.w--; for out.w > dotdot && out.index(out.w) != '/' { out.w-- }`. -/
def backtrackRev : Str → Nat → Str
  | [], _ => []
  | c :: rest, dotdot =>
    if dotdot < rest.length ∧ c ≠ '/' then backtrackRev rest dotdot else rest

/-- The output buffer after backtracking over its last element. -/
def backtrack (out : Str) (dotdot : Nat) : Str :=
  (backtrackRev out.reverse dotdot).reverse

/-- Where the main loop of `path.Clean` stands: at the head of the loop
(`top`), inside the loop copying a real element (`copy`), or on the second
dot of a `..` element (`dot2`, the second half of `r += 2`). -/
inductive CleanMode where
  | top
  | copy
  | dot2
deriving DecidableEq

/-- The main loop of Go's `path.Clean`, one symbol of the path per call:
`rest` is `path[r:]`, `out` the output buffer `out.buf[:out.w]`. -/
def cleanLoop (rooted : Bool) : CleanMode → Str → Str → Nat → Str
  | _, [], out, _ => out
  | .copy, c :: t, out, dotdot =>
    if c = '/' then cleanLoop rooted .top t out dotdot
    else cleanLoop rooted .copy t (out ++ [c]) dotdot
  | .dot2, _ :: t, out, dotdot => cleanLoop rooted .top t out dotdot
  | .top, c :: t, out, dotdot =>
    if c = '/' then cleanLoop rooted .top t out dotdot
    else if c = '.' ∧ atElemEnd t = true then cleanLoop rooted .top t out dotdot
    else if c = '.' ∧ t.head? = some '.' ∧ atElemEnd t.tail = true then
      if dotdot < out.length then
        cleanLoop rooted .dot2 t (backtrack out dotdot) dotdot
      else if rooted = false then
        cleanLoop rooted .dot2 t
          ((if 0 < out.length then out ++ ['/'] else out) ++ ['.', '.'])
          ((if 0 < out.length then out ++ ['/'] else out) ++ ['.', '.']).length
      else cleanLoop rooted .dot2 t out dotdot
    else
      cleanLoop rooted .copy t
        ((if (rooted = true ∧ out.length ≠ 1) ∨ (rooted = false ∧ out.length ≠ 0)
          then out ++ ['/'] else out) ++ [c]) dotdot

/-- Go's `path.Clean`. -/
def Clean (path : Str) : Str :=
  match path with
  | [] => ['.']
  | c :: t =>
    let out :=
      if c = '/' then cleanLoop true .top t ['/'] 1
      else cleanLoop false .top (c :: t) [] 0
    if out.length = 0 then ['.'] else out

/-- The buffer that `path.Join` builds: the non-empty elements separated by
slashes (an empty element is only skipped while the buffer is empty). -/
def joinBuf : List Str → Str → Str
  | [], buf => buf
  | e :: es, buf =>
    if buf ≠ [] ∨ e ≠ [] then
      joinBuf es ((if buf ≠ [] then buf ++ ['/'] else buf) ++ e)
    else joinBuf es buf

/-- Go's `path.Join`. -/
def Join (elem : List Str) : Str :=
  if (elem.map List.length).sum = 0 then [] else Clean (joinBuf elem [])

/-- The function `getSavePath` of `main.go`. -/
def getSavePath (post : Post) (directory : Str) : Str :=
  Join [directory, Itoa post.ID ++ Ext post.FileURL]

/-! ## The environment and `downloadPost` -/

/-- An HTTP response: `Body` is what `ioutil.ReadAll(resp.Body)` yields,
`none` when reading the body fails. -/
structure Response where
  Body : Option (List Nat)
deriving DecidableEq

/-- What the program does not control: `transport` is the result of
`client.Do(req)` for a URL (`none` is a transport error), `writable` tells
whether `ioutil.WriteFile` succeeds on a path, and `newRequestOk` tells
whether `http.NewRequest("GET", url, nil)` builds a request for a URL (when
the URL does not parse it returns a nil request and an error). -/
structure Env where
  transport : Str → Option Response
  writable : Str → Bool
  newRequestOk : Str → Bool

/-- The part of the outside world the downloader acts on: the files on disk
(path and content, `os.Stat` succeeds exactly on the paths present) and the
URLs requested through `HTTPGet` so far, oldest first. -/
structure World where
  files : List (Str × List Nat)
  requests : List Str
deriving DecidableEq

/-- How a call of `downloadPost` fails: at one of the three places where it
returns a non-nil error, or by the panic of `HTTPGet`, after which nothing is
returned and the process is gone. -/
inductive DlError where
  | transport
  | bodyRead
  | fileWrite
  | panic
deriving DecidableEq

/-- What a call of `HTTPGet` comes to: the response and nil, nil and an
error, or a panic. -/
inductive HTTPResult where
  | resp (r : Response)
  | err
  | panic
deriving DecidableEq

/-- Whether `os.Stat(path)` returns a nil error. -/
def statOk (w : World) (path : Str) : Bool := (w.files.lookup path).isSome

/-- The function `HTTPGet` of `main.go`. The error of `http.NewRequest` is
discarded, so when no request was built `req.Header.Set` dereferences a nil
request and panics; otherwise one request goes through the transport and is
recorded in the world. -/
def HTTPGet (env : Env) (url : Str) (w : World) : HTTPResult × World :=
  if env.newRequestOk url then
    match env.transport url with
    | none => (.err, { w with requests := w.requests ++ [url] })
    | some r => (.resp r, { w with requests := w.requests ++ [url] })
  else (.panic, w)

/-- Go's `ioutil.WriteFile`: the file holds the data afterwards, or the call
fails and the disk is as before. -/
def WriteFile (env : Env) (path : Str) (data : List Nat) (w : World) : Bool × World :=
  if env.writable path then
    (true, { w with files := (path, data) :: w.files.filter (fun f => f.1 ≠ path) })
  else (false, w)

/-- The function `downloadPost` of `main.go`: the returned error (`none` is
Go's `nil`, `some .panic` the panic inside `HTTPGet`) and the world
afterwards. -/
def downloadPost (env : Env) (post : Post) (directory : Str) (w : World) :
    Option DlError × World :=
  let savePath := getSavePath post directory
  if statOk w savePath then (none, w)
  else
    match HTTPGet env post.FileURL w with
    | (.panic, w1) => (some .panic, w1)
    | (.err, w1) => (some .transport, w1)
    | (.resp resp, w1) =>
      match resp.Body with
      | none => (some .bodyRead, w1)
      | some body =>
        match WriteFile env savePath body w1 with
        | (false, w2) => (some .fileWrite, w2)
        | (true, w2) => (none, w2)

/-! ## The dispatcher and its workers -/

/-- Where a `work` goroutine stands. A `++` on a field of the shared
`workState` is a load followed by a store. -/
inductive WPc where
  /-- About to load `state.Completed`. -/
  | incLoad
  /-- Loaded `state.Completed = r`, about to store `r + 1`. -/
  | incStore (r : Nat)
  /-- Blocked in `post := <-wc`. -/
  | recv
  /-- Received `&(*posts)[idx]`, about to print the progress line and call
  `downloadPost`. -/
  | hold (idx : Nat)
  /-- `downloadPost` returned nil, about to load `state.Successes`. -/
  | succLoad
  /-- Loaded `state.Successes = r`, about to store `r + 1`. -/
  | succStore (r : Nat)
  /-- `downloadPost` returned an error, about to load `state.Failures`. -/
  | failLoad
  /-- Loaded `state.Failures = r`, about to store `r + 1`. -/
  | failStore (r : Nat)
  /-- Blocked in `wc <- nil`. -/
  | send
  /-- Returned from `work`. -/
  | exited
  /-- Gone with the process after a panic; `held` is the post the worker had
  received and not yet processed, if any. -/
  | killed (held : Option Nat)
deriving DecidableEq

/-- Whether a worker is gone with the process. -/
def isKilled : WPc → Bool
  | .killed _ => true
  | _ => false

/-- What a panic in some goroutine does to a worker. -/
def kill : WPc → WPc
  | .hold idx => .killed (some idx)
  | .killed held => .killed held
  | _ => .killed none

/-- Where the goroutine running `BeginDownload` stands. -/
inductive DPc where
  /-- At the condition `i < *maxConcurrents` of the spawn loop. -/
  | spawnLoop
  /-- Blocked in `wc <- &(*posts)[current]` inside the spawn loop. -/
  | spawnSend
  /-- Blocked in `<-wc` at the head of the distribution loop. -/
  | recv
  /-- About to load `state.Successes`, the left operand of the comparison
  `state.Successes+state.Failures == total`. -/
  | checkS
  /-- Loaded `state.Successes = a`, about to load `state.Failures`, compare
  and branch. -/
  | checkF (a : Nat)
  /-- Blocked in `wc <- nil` (stopping a worker). -/
  | sendNil
  /-- Blocked in `wc <- &(*posts)[current]` inside the distribution loop. -/
  | sendPost
  /-- Returned from `BeginDownload`. -/
  | returned
  /-- Panicked on an index `(*posts)[current]` out of range. -/
  | panicked
deriving DecidableEq

/-- One line of the run's record: worker number `wn` called `downloadPost`
on `(*posts)[idx]`, the call returned, and `ok` tells whether it returned nil. The program
prints `Downloading post` for each such call and `Failed to download post`
for those with `ok = false`. -/
structure Event where
  wn : Nat
  idx : Nat
  ok : Bool
deriving DecidableEq

/-- The state of a run of `BeginDownload`: its local variables, the shared
`workState`, the goroutines `work(k+1, ...)` in spawn order, the world and
the record of the `downloadPost` calls. -/
structure State where
  /-- The caller's variable behind `maxConcurrents`. -/
  maxConcurrents : Int
  total : Nat
  i : Nat
  current : Nat
  pc : DPc
  Completed : Nat
  Successes : Nat
  Failures : Nat
  workers : List WPc
  world : World
  events : List Event
  /-- Whether a panic has ended the process. -/
  crashed : Bool
deriving DecidableEq

/-- A goroutine: the one running `BeginDownload`, or `work(k+1, ...)`. -/
inductive Proc where
  | main
  | worker (k : Nat)
deriving DecidableEq

/-- A step of the run: goroutine `p` runs alone (`tau p`), or the send of
`snd` and the receive of `rcv` on the channel `wc` meet (`comm snd rcv`). -/
inductive Action where
  | tau (p : Proc)
  | comm (snd rcv : Proc)
deriving DecidableEq

/-- The state when `BeginDownload` has run up to its spawn loop: the channel
is made, `total` and `state` are set and `*maxConcurrents` is clamped. -/
def BeginDownload (posts : List Post) (maxConcurrents : Int) (w : World) : State :=
  { maxConcurrents :=
      if maxConcurrents > (posts.length : Int) then (posts.length : Int) else maxConcurrents
    total := posts.length
    i := 0
    current := 0
    pc := .spawnLoop
    Completed := 0
    Successes := 0
    Failures := 0
    workers := []
    world := w
    events := []
    crashed := false }

/-- A step of the `BeginDownload` goroutine on its own; there is none once
a panic has ended the process. -/
def mainStep (s : State) : Option State :=
  if s.crashed then none
  else
    match s.pc with
    | .spawnLoop =>
      if (s.i : Int) < s.maxConcurrents then
        if s.current < s.total then
          some { s with workers := s.workers ++ [WPc.incLoad], pc := .spawnSend }
        else
          some { s with
            workers := (s.workers ++ [WPc.incLoad]).map kill
            pc := .panicked, crashed := true }
      else some { s with pc := .recv }
    | .checkS => some { s with pc := .checkF s.Successes }
    | .checkF a =>
      if a + s.Failures = s.total then some { s with pc := .returned }
      else if s.current ≥ s.total then some { s with pc := .sendNil }
      else some { s with pc := .sendPost }
    | _ => none

/-- A step of the goroutine `work(k+1, ...)` on its own. When its call of
`downloadPost` panics, the process ends: every worker is killed and the
dispatcher makes no further step. -/
def workStep (env : Env) (posts : List Post) (directory : Str) (k : Nat) (s : State) :
    Option State :=
  match s.workers[k]? with
  | none => none
  | some .incLoad => some { s with workers := s.workers.set k (.incStore s.Completed) }
  | some (.incStore r) =>
    some { s with Completed := r + 1, workers := s.workers.set k .recv }
  | some (.hold idx) =>
    match posts[idx]? with
    | none => none
    | some post =>
      let r := downloadPost env post directory s.world
      if r.1 = some .panic then
        some { s with world := r.2, workers := s.workers.map kill, crashed := true }
      else
        some { s with
          world := r.2
          events := s.events ++ [⟨k + 1, idx, r.1.isNone⟩]
          workers := s.workers.set k (if r.1.isNone then .succLoad else .failLoad) }
  | some .succLoad => some { s with workers := s.workers.set k (.succStore s.Successes) }
  | some (.succStore r) =>
    some { s with Successes := r + 1, workers := s.workers.set k .send }
  | some .failLoad => some { s with workers := s.workers.set k (.failStore s.Failures) }
  | some (.failStore r) =>
    some { s with Failures := r + 1, workers := s.workers.set k .send }
  | some _ => none

/-- The send of the `BeginDownload` goroutine meets the receive of worker `k`. -/
def commMainWorker (k : Nat) (s : State) : Option State :=
  if s.workers[k]? = some .recv then
    match s.pc with
    | .spawnSend =>
      some { s with
        workers := s.workers.set k (.hold s.current)
        current := s.current + 1, i := s.i + 1, pc := .spawnLoop }
    | .sendPost =>
      some { s with
        workers := s.workers.set k (.hold s.current)
        current := s.current + 1, pc := .recv }
    | .sendNil => some { s with workers := s.workers.set k .exited, pc := .recv }
    | _ => none
  else none

/-- The `wc <- nil` of worker `j` meets the `<-wc` of the `BeginDownload`
goroutine. -/
def commWorkerMain (j : Nat) (s : State) : Option State :=
  if s.workers[j]? = some .send ∧ s.pc = .recv then
    some { s with workers := s.workers.set j .incLoad, pc := .checkS }
  else none

/-- The `wc <- nil` of worker `j` meets the `post := <-wc` of worker `k`:
worker `k` reads nil and returns. -/
def commWorkerWorker (j k : Nat) (s : State) : Option State :=
  if j ≠ k ∧ s.workers[j]? = some .send ∧ s.workers[k]? = some .recv then
    some { s with workers := (s.workers.set j .incLoad).set k .exited }
  else none

/-- One step of the run; `none` when the action is not enabled. -/
def step (env : Env) (posts : List Post) (directory : Str) (s : State) :
    Action → Option State
  | .tau .main => mainStep s
  | .tau (.worker k) => workStep env posts directory k s
  | .comm .main (.worker k) => commMainWorker k s
  | .comm (.worker j) .main => commWorkerMain j s
  | .comm (.worker j) (.worker k) => commWorkerWorker j k s
  | .comm .main .main => none

/-- The state after a schedule (a list of actions), `none` when one of them
is not enabled where it stands. -/
def exec (env : Env) (posts : List Post) (directory : Str) :
    State → List Action → Option State
  | s, [] => some s
  | s, a :: as =>
    match step env posts directory s a with
    | none => none
    | some s1 => exec env posts directory s1 as

/-! ## Counting over the workers and over the record of a run -/

/-- The sum of `f` over the workers. -/
def wsum (f : WPc → Nat) (ws : List WPc) : Nat := (ws.map f).sum

/-- One for a worker whose `downloadPost` returned nil and whose store to
`state.Successes` is still to come. -/
def pendS : WPc → Nat
  | .succLoad => 1
  | .succStore _ => 1
  | _ => 0

/-- One for a worker whose `downloadPost` failed and whose store to
`state.Failures` is still to come. -/
def pendF : WPc → Nat
  | .failLoad => 1
  | .failStore _ => 1
  | _ => 0

/-- One for a worker that holds a post it has not yet processed, also when
it was killed with the post in hand. -/
def isHold : WPc → Nat
  | .hold _ => 1
  | .killed (some _) => 1
  | _ => 0

/-- One for a worker that holds post number `j` unprocessed, also when it
was killed with the post in hand. -/
def holds (j : Nat) : WPc → Nat
  | .hold idx => if idx = j then 1 else 0
  | .killed (some idx) => if idx = j then 1 else 0
  | _ => 0

/-- The number of `downloadPost` calls that returned nil. -/
def okCount (es : List Event) : Nat := es.countP (fun e => e.ok)

/-- The number of `downloadPost` calls that returned an error. -/
def errCount (es : List Event) : Nat := es.countP (fun e => !e.ok)

/-- The number of `downloadPost` calls on post number `j`. -/
def idxCount (j : Nat) (es : List Event) : Nat := es.countP (fun e => e.idx = j)

/-- The bookkeeping of the `BeginDownload` goroutine: `m` is the clamped
worker count and `n` the number of posts. -/
structure InvA (m : Int) (n : Nat) (s : State) : Prop where
  le : m ≤ n
  maxc : s.maxConcurrents = m
  total : s.total = n
  cur : s.current ≤ n
  nopanic : s.pc ≠ .panicked
  spawnLoop : s.pc = .spawnLoop →
    s.current = s.i ∧ s.workers.length = s.i ∧ s.i ≤ m.toNat
  spawnSend : s.pc = .spawnSend →
    s.current = s.i ∧ s.workers.length = s.i + 1 ∧ (s.i : Int) < m ∧ s.current < n
  spawned : s.pc ≠ .spawnLoop → s.pc ≠ .spawnSend → s.workers.length = m.toNat
  sendPost : s.pc = .sendPost → s.current < n

/-- The accounting of posts and counters: every post handed out is held by
one worker or was processed once, and a counter never exceeds the number of
finished increments. -/
structure InvB (s : State) : Prop where
  handed : s.events.length + wsum isHold s.workers = s.current
  once : ∀ j, idxCount j s.events + wsum (holds j) s.workers = if j < s.current then 1 else 0
  succ : s.Successes + wsum pendS s.workers ≤ okCount s.events
  fail : s.Failures + wsum pendF s.workers ≤ errCount s.events
  succReg : ∀ r, WPc.succStore r ∈ s.workers → r + wsum pendS s.workers ≤ okCount s.events
  failReg : ∀ r, WPc.failStore r ∈ s.workers → r + wsum pendF s.workers ≤ errCount s.events
  check : ∀ a, s.pc = .checkF a →
    a + wsum pendS s.workers ≤ okCount s.events ∧
    (a + wsum pendS s.workers = okCount s.events → s.Successes = a)
  ret : s.pc = .returned → s.Successes + s.Failures = s.total

/-! ## Concrete runs -/

/-- Whether a URL is made of letters, digits, dots and slashes only. For
such a URL `http.NewRequest` builds a request; the concrete environments
below build one for no other URL. -/
def plainURL (url : Str) : Bool :=
  url.all (fun c => c.isAlphanum || c == '.' || c == '/')

/-- A transport that answers every request with a one-byte body, on a disk
where every write succeeds. -/
def okEnv : Env := ⟨fun _ => some ⟨some [0]⟩, fun _ => true, plainURL⟩

/-- A transport that fails on the URL `u/b.png` and answers every other
request, on a disk where every write succeeds. -/
def failEnv : Env :=
  ⟨fun url => if url = "u/b.png".toList then none else some ⟨some [0]⟩, fun _ => true,
    plainURL⟩

/-- An empty disk, before any request. -/
def emptyWorld : World := ⟨[], []⟩

/-- Five posts with the IDs 1 to 5. -/
def fivePosts : List Post :=
  [⟨1, "u/a.png".toList⟩, ⟨2, "u/b.png".toList⟩, ⟨3, "u/c.png".toList⟩,
   ⟨4, "u/d.png".toList⟩, ⟨5, "u/e.png".toList⟩]

/-- The state a schedule leads to from the start of `BeginDownload` (the
start state itself when the schedule cannot be run). -/
def runOf (env : Env) (posts : List Post) (directory : Str) (maxConcurrents : Int)
    (w : World) (sched : List Action) : State :=
  (exec env posts directory (BeginDownload posts maxConcurrents w) sched).getD
    (BeginDownload posts maxConcurrents w)

/-- A run of one post with one worker, up to the return of `BeginDownload`. -/
def schedOne : List Action :=
  [.tau .main, .tau (.worker 0), .tau (.worker 0), .comm .main (.worker 0), .tau (.worker 0),
   .tau (.worker 0), .tau (.worker 0), .tau .main, .comm (.worker 0) .main, .tau .main,
   .tau .main]

/-- A run of five posts with two workers: worker 1 takes posts 0, 2 and 4, worker 2
takes posts 1 and 3 and is then stopped. -/
def schedFive : List Action :=
  [.tau .main, .tau (.worker 0), .tau (.worker 0), .comm .main (.worker 0), .tau .main,
   .tau (.worker 1), .tau (.worker 1), .comm .main (.worker 1), .tau .main, .tau (.worker 0),
   .tau (.worker 0), .tau (.worker 0), .comm (.worker 0) .main, .tau .main, .tau .main,
   .tau (.worker 0), .tau (.worker 0), .comm .main (.worker 0), .tau (.worker 1),
   .tau (.worker 1), .tau (.worker 1), .comm (.worker 1) .main, .tau .main, .tau .main,
   .tau (.worker 1), .tau (.worker 1), .comm .main (.worker 1), .tau (.worker 0),
   .tau (.worker 0), .tau (.worker 0), .comm (.worker 0) .main, .tau .main, .tau .main,
   .tau (.worker 0), .tau (.worker 0), .comm .main (.worker 0), .tau (.worker 1),
   .tau (.worker 1), .tau (.worker 1), .comm (.worker 1) .main, .tau .main, .tau .main,
   .tau (.worker 1), .tau (.worker 1), .comm .main (.worker 1), .tau (.worker 0),
   .tau (.worker 0), .tau (.worker 0), .comm (.worker 0) .main, .tau .main, .tau .main]

/-- A run of three posts with three workers in which the second post is processed
first. -/
def schedThree : List Action :=
  [.tau .main, .tau (.worker 0), .tau (.worker 0), .comm .main (.worker 0), .tau .main,
   .tau (.worker 1), .tau (.worker 1), .comm .main (.worker 1), .tau .main, .tau (.worker 2),
   .tau (.worker 2), .comm .main (.worker 2), .tau .main, .tau (.worker 1), .tau (.worker 1),
   .tau (.worker 1), .tau (.worker 0), .tau (.worker 0), .tau (.worker 0), .tau (.worker 2),
   .tau (.worker 2), .tau (.worker 2), .comm (.worker 1) .main, .tau .main, .tau .main]

/-- A run of two posts with two workers. Both workers get their post; worker 1
finishes and hands its token to the dispatcher, which reads
`Successes + Failures = 1` and, the list being exhausted, goes on to
`wc <- nil`; worker 2 finishes and sends its token; worker 1, back at
`post := <-wc`, receives that token and returns; worker 2, back at
`post := <-wc`, receives the nil of the dispatcher and returns. -/
def schedDeadlock : List Action :=
  [.tau .main, .tau (.worker 0), .tau (.worker 0), .comm .main (.worker 0), .tau .main,
   .tau (.worker 1), .tau (.worker 1), .comm .main (.worker 1), .tau .main, .tau (.worker 0),
   .tau (.worker 0), .tau (.worker 0), .comm (.worker 0) .main, .tau .main, .tau .main,
   .tau (.worker 1), .tau (.worker 1), .tau (.worker 1), .tau (.worker 0), .tau (.worker 0),
   .comm (.worker 1) (.worker 0), .tau (.worker 1), .tau (.worker 1), .comm .main (.worker 1)]

/-- A run of two posts with two workers up to the point where worker 1 waits for
the reply to its token while worker 2 and the dispatcher are both sending. -/
def schedCross : List Action :=
  [.tau .main, .tau (.worker 0), .tau (.worker 0), .comm .main (.worker 0), .tau .main,
   .tau (.worker 1), .tau (.worker 1), .comm .main (.worker 1), .tau .main, .tau (.worker 0),
   .tau (.worker 0), .tau (.worker 0), .comm (.worker 0) .main, .tau .main, .tau (.worker 1),
   .tau (.worker 1), .tau .main, .tau (.worker 1), .tau (.worker 0), .tau (.worker 0)]


/-- A transport on which every request fails, on a disk where every write
fails. -/
def deadEnv : Env := ⟨fun _ => none, fun _ => false, plainURL⟩

/-- A post with the ID 42. -/
def post42 : Post := ⟨42, "u/x.png".toList⟩

/-- A disk that already holds the file `dl/42.png`. -/
def world42 : World := ⟨[("dl/42.png".toList, [7])], []⟩

/-- A post with the ID 43 and the file URL of `post42`. -/
def post43 : Post := ⟨43, "u/x.png".toList⟩

/-- A run of two posts with two workers in which both calls of `downloadPost`
fail and the two `state.Failures++` overlap: both workers load
`state.Failures` before either stores. -/
def schedLost : List Action :=
  [.tau .main, .tau (.worker 0), .tau (.worker 0), .comm .main (.worker 0), .tau .main,
   .tau (.worker 1), .tau (.worker 1), .comm .main (.worker 1), .tau .main, .tau (.worker 0),
   .tau (.worker 1), .tau (.worker 0), .tau (.worker 1), .tau (.worker 0), .tau (.worker 1)]

/-- The run `schedLost`, continued: each worker hands over its token, the
dispatcher reads `Successes + Failures = 1`, finds the list exhausted and
stops the worker. -/
def schedLostStuck : List Action :=
  [.tau .main, .tau (.worker 0), .tau (.worker 0), .comm .main (.worker 0), .tau .main,
   .tau (.worker 1), .tau (.worker 1), .comm .main (.worker 1), .tau .main, .tau (.worker 0),
   .tau (.worker 1), .tau (.worker 0), .tau (.worker 1), .tau (.worker 0), .tau (.worker 1),
   .comm (.worker 0) .main, .tau .main, .tau .main, .tau (.worker 0), .tau (.worker 0),
   .comm .main (.worker 0), .comm (.worker 1) .main, .tau .main, .tau .main, .tau (.worker 1),
   .tau (.worker 1), .comm .main (.worker 1)]

/-- A run of one post with one worker up to the worker's call of `downloadPost`. -/
def schedPanic : List Action :=
  [.tau .main, .tau (.worker 0), .tau (.worker 0), .comm .main (.worker 0), .tau (.worker 0)]

/-- A post whose file URL does not parse (an invalid percent escape). -/
def badPost : Post := ⟨7, "%zz".toList⟩

/-- The schedule that spawns `k` workers one after the other: the dispatcher
starts `work`, the new worker adds one to `state.Completed` and receives the
post that the dispatcher sends it. -/
def spawnSched : Nat → List Action
  | 0 => []
  | k + 1 =>
    spawnSched k ++ [.tau .main, .tau (.worker k), .tau (.worker k), .comm .main (.worker k)]

/-- The state after `spawnSched k`: worker `j + 1` holds post `j`. -/
def spawnedState (posts : List Post) (maxConcurrents : Int) (w : World) (k : Nat) : State :=
  { BeginDownload posts maxConcurrents w with
    i := k, current := k, Completed := k, workers := (List.range k).map WPc.hold }

/-! ## The fetch loop of `main` -/

/-- How the fetch loop of `main` ends: on an empty page, on `nlimit <= 0`,
or in `panic(err)` when `GetPosts` returns an error. -/
inductive FetchExit where
  | emptyPage
  | limitReached
  | panicked
deriving DecidableEq

/-- What the fetch loop of `main` leaves behind: the `limit` arguments it
passed to `GetPosts` (page 1 first), the posts collected in `allPosts`, and
how it ended. -/
structure Fetched where
  requested : List Int
  allPosts : List Post
  exit : FetchExit

/-- The fetch loop of `main` from the head of an iteration, for page `i`
with `nlimit` posts still wanted. `GetPosts i limit` stands for the call
`GetPosts(*tags, i, limit, transport)`, `none` for a non-nil error. -/
def fetchLoop (GetPosts : Nat → Int → Option (List Post)) (i : Nat) (nlimit : Int)
    (allPosts : List Post) (requested : List Int) : Fetched :=
  let currentPostsCount : Int := 100
  let nlimit1 : Int := nlimit - currentPostsCount
  let currentPostsCount1 : Int :=
    if nlimit1 ≤ 0 then currentPostsCount + nlimit1 else currentPostsCount
  match GetPosts i currentPostsCount1 with
  | none => ⟨requested ++ [currentPostsCount1], allPosts, .panicked⟩
  | some posts =>
    if posts.length = 0 then ⟨requested ++ [currentPostsCount1], allPosts, .emptyPage⟩
    else if nlimit1 ≤ 0 then
      ⟨requested ++ [currentPostsCount1], allPosts ++ posts, .limitReached⟩
    else
      fetchLoop GetPosts (i + 1) nlimit1 (allPosts ++ posts)
        (requested ++ [currentPostsCount1])
termination_by nlimit.toNat
decreasing_by
  simp only [nlimit1, currentPostsCount] at *
  omega

/-- The fetch loop of `main` for the flag `-limit postLimit`. -/
def fetchAll (GetPosts : Nat → Int → Option (List Post)) (postLimit : Int) : Fetched :=
  fetchLoop GetPosts 1 postLimit [] []

/-! ## Reading a destination path back -/

/-- The number that a string of decimal digits stands for. -/
def decVal (cs : Str) : Nat := cs.foldl (fun acc c => 10 * acc + (c.toNat - 48)) 0

/-- The last slash-separated element of a path: what follows its last slash. -/
def lastElem (path : Str) : Str := (path.reverse.takeWhile (fun c => c ≠ '/')).reverse

/-- The output buffer of `path.Clean` once the slash before a real path
element is added, if one is needed. -/
def withSlash (rooted : Bool) (out : Str) : Str :=
  if (rooted = true ∧ out.length ≠ 1) ∨ (rooted = false ∧ out.length ≠ 0)
    then out ++ ['/'] else out

/-- What `path.Clean` keeps true of its output buffer on a rooted path: the
buffer starts with the root slash and `dotdot` is at least one. -/
def RootedOk (rooted : Bool) (out : Str) (dotdot : Nat) : Prop :=
  rooted = true → (∃ r, out = '/' :: r) ∧ 1 ≤ dotdot

/-! ## Lemmas on counting -/

theorem wsum_nil (f : WPc → Nat) : wsum f [] = 0 := rfl

theorem wsum_append (f : WPc → Nat) (ws : List WPc) (w : WPc) :
    wsum f (ws ++ [w]) = wsum f ws + f w := by
  simp [wsum]

theorem wsum_set (f : WPc → Nat) {ws : List WPc} {k : Nat} {w : WPc}
    (h : ws[k]? = some w) (w1 : WPc) :
    wsum f (ws.set k w1) + f w = wsum f ws + f w1 := by
  induction ws generalizing k with
  | nil => simp at h
  | cons a t ih =>
    cases k with
    | zero =>
      simp at h
      subst h
      simp [wsum]
      omega
    | succ k =>
      simp at h
      have := ih h
      simp [wsum] at this ⊢
      omega

theorem le_wsum (f : WPc → Nat) {ws : List WPc} {w : WPc} (h : w ∈ ws) :
    f w ≤ wsum f ws := by
  induction ws with
  | nil => simp at h
  | cons a t ih =>
    simp [wsum] at h ⊢
    rcases h with h | h
    · subst h; omega
    · have := ih h
      simp [wsum] at this
      omega

theorem mem_of_getElem? {ws : List WPc} {k : Nat} {w : WPc} (h : ws[k]? = some w) :
    w ∈ ws := by
  rw [List.getElem?_eq_some] at h
  obtain ⟨hk, rfl⟩ := h
  exact List.getElem_mem hk

theorem okCount_add_errCount (es : List Event) : okCount es + errCount es = es.length := by
  induction es with
  | nil => rfl
  | cons e t ih =>
    simp only [okCount, errCount, List.countP_cons, List.length_cons] at ih ⊢
    cases e.ok <;> simp <;> omega

theorem set_facts {ws : List WPc} {k : Nat} {w : WPc} (hk : ws[k]? = some w) (w1 : WPc) :
    (∀ f, wsum f (ws.set k w1) + f w = wsum f ws + f w1) ∧
    (∀ x, x ∈ ws.set k w1 → x ∈ ws ∨ x = w1) ∧ w ∈ ws :=
  ⟨fun f => wsum_set f hk w1, fun _ hx => List.mem_or_eq_of_mem_set hx, mem_of_getElem? hk⟩

theorem wsum_map_kill (f : WPc → Nat) (h : ∀ w, f (kill w) = f w) (ws : List WPc) :
    wsum f (ws.map kill) = wsum f ws := by
  induction ws with
  | nil => rfl
  | cons a t ih =>
    simp only [wsum, List.map_cons, List.sum_cons] at ih ⊢
    rw [ih, h a]

theorem wsum_map_kill_zero (f : WPc → Nat) (h : ∀ w, f (kill w) = 0) (ws : List WPc) :
    wsum f (ws.map kill) = 0 := by
  induction ws with
  | nil => rfl
  | cons a t ih =>
    simp only [wsum, List.map_cons, List.sum_cons] at ih ⊢
    rw [ih, h a]

theorem isHold_kill (w : WPc) : isHold (kill w) = isHold w := by
  cases w with
  | killed held => cases held <;> rfl
  | _ => rfl

theorem holds_kill (j : Nat) (w : WPc) : holds j (kill w) = holds j w := by
  cases w with
  | killed held => cases held <;> rfl
  | _ => rfl

theorem pendS_kill (w : WPc) : pendS (kill w) = 0 := by
  cases w <;> rfl

theorem pendF_kill (w : WPc) : pendF (kill w) = 0 := by
  cases w <;> rfl

theorem mem_map_kill {ws : List WPc} {x : WPc} (h : x ∈ ws.map kill) :
    ∃ held, x = .killed held := by
  obtain ⟨w, -, hw⟩ := List.mem_map.mp h
  cases w <;> exact ⟨_, hw.symm⟩

theorem okCount_snoc (es : List Event) (e : Event) :
    okCount (es ++ [e]) = okCount es + (if e.ok = true then 1 else 0) := by
  simp [okCount, List.countP_append, List.countP_cons]

theorem errCount_snoc (es : List Event) (e : Event) :
    errCount (es ++ [e]) = errCount es + (if e.ok = true then 0 else 1) := by
  simp [errCount, List.countP_append, List.countP_cons]
  cases e.ok <;> simp

theorem idxCount_snoc (j : Nat) (es : List Event) (e : Event) :
    idxCount j (es ++ [e]) = idxCount j es + (if e.idx = j then 1 else 0) := by
  simp [idxCount, List.countP_append, List.countP_cons]

theorem workStep_frame {env : Env} {posts : List Post} {dir : Str} {k : Nat} {s s1 : State}
    (h : workStep env posts dir k s = some s1) :
    s1.pc = s.pc ∧ s1.i = s.i ∧ s1.current = s.current ∧
    s1.maxConcurrents = s.maxConcurrents ∧ s1.total = s.total ∧
    s1.workers.length = s.workers.length := by
  unfold workStep at h
  split at h <;> try (simp at h)
  all_goals first
    | (subst h; simp)
    | (split at h
       · simp at h
       · split at h <;> (simp at h; subst h; simp))

theorem invB_workStep {env : Env} {posts : List Post} {dir : Str} {k : Nat} {s s1 : State}
    (hb : InvB s) (hcur : s.current ≤ s.total)
    (h : workStep env posts dir k s = some s1) : InvB s1 := by
  have hsum := okCount_add_errCount s.events
  obtain ⟨b1, b2, b3, b4, b5, b6, b7, b8⟩ := hb
  unfold workStep at h
  split at h
  · simp at h
  · -- incLoad
    rename_i hk
    simp at h; subst h
    obtain ⟨es, hmem, -⟩ := set_facts hk (.incStore s.Completed)
    have e1 := es pendS
    have e2 := es pendF
    have e3 := es isHold
    have e4 := fun j => es (holds j)
    simp [pendS, pendF, isHold, holds] at e1 e2 e3 e4
    constructor <;> simp [e1, e2, e3, e4] <;> try assumption
    · intro r hr
      rcases hmem _ hr with h | h
      · exact b5 r h
      · simp at h
    · intro r hr
      rcases hmem _ hr with h | h
      · exact b6 r h
      · simp at h
  · -- incStore
    rename_i r0 hk
    simp at h; subst h
    obtain ⟨es, hmem, -⟩ := set_facts hk .recv
    have e1 := es pendS
    have e2 := es pendF
    have e3 := es isHold
    have e4 := fun j => es (holds j)
    simp [pendS, pendF, isHold, holds] at e1 e2 e3 e4
    constructor <;> simp [e1, e2, e3, e4] <;> try assumption
    · intro r hr
      rcases hmem _ hr with h | h
      · exact b5 r h
      · simp at h
    · intro r hr
      rcases hmem _ hr with h | h
      · exact b6 r h
      · simp at h
  · -- hold
    rename_i idx hk
    split at h
    · simp at h
    · rename_i post hpost
      dsimp only at h
      split at h
      · -- the call panics
        simp only [Option.some.injEq] at h
        subst h
        have k1 := wsum_map_kill isHold isHold_kill s.workers
        have k2 := fun j => wsum_map_kill (holds j) (holds_kill j) s.workers
        have k3 := wsum_map_kill_zero pendS pendS_kill s.workers
        have k4 := wsum_map_kill_zero pendF pendF_kill s.workers
        constructor <;> simp only [k1, k2, k3, k4] <;> try assumption
        · omega
        · omega
        · intro r hr
          obtain ⟨held, hx⟩ := mem_map_kill hr
          simp at hx
        · intro r hr
          obtain ⟨held, hx⟩ := mem_map_kill hr
          simp at hx
        · intro a ha
          have := b7 a ha
          omega
      rename_i hnp
      simp only [Option.some.injEq] at h
      subst h
      generalize (downloadPost env post dir s.world).1.isNone = ok
      obtain ⟨es, hmem, -⟩ := set_facts hk (if ok = true then .succLoad else .failLoad)
      have e1 := es pendS
      have e2 := es pendF
      have e3 := es isHold
      have e4 := fun j => es (holds j)
      cases ok
      all_goals
        simp [pendS, pendF, isHold, holds] at e1 e2 e3 e4 hmem
        constructor
        · simp; omega
        · intro j
          have := b2 j
          have := e4 j
          simp [idxCount_snoc]
          split_ifs at * <;> omega
        · simp [okCount_snoc]; omega
        · simp [errCount_snoc]; omega
        · intro r hr
          simp at hr
          have := b5 r (by simpa using hmem _ hr)
          simp [okCount_snoc]; omega
        · intro r hr
          simp at hr
          have := b6 r (by simpa using hmem _ hr)
          simp [errCount_snoc]; omega
        · intro a ha
          have := b7 a ha
          simp [okCount_snoc]; omega
        · simpa using b8
  · -- succLoad
    rename_i hk
    simp at h; subst h
    obtain ⟨es, hmem, -⟩ := set_facts hk (.succStore s.Successes)
    have e1 := es pendS
    have e2 := es pendF
    have e3 := es isHold
    have e4 := fun j => es (holds j)
    simp [pendS, pendF, isHold, holds] at e1 e2 e3 e4
    constructor <;> simp [e1, e2, e3, e4] <;> try assumption
    · intro r hr
      rcases hmem _ hr with h | h
      · exact b5 r h
      · simp at h; subst h; exact b3
    · intro r hr
      rcases hmem _ hr with h | h
      · exact b6 r h
      · simp at h
  · -- succStore
    rename_i r0 hk
    simp at h; subst h
    obtain ⟨es, hmem, hold⟩ := set_facts hk .send
    have e1 := es pendS
    have e2 := es pendF
    have e3 := es isHold
    have e4 := fun j => es (holds j)
    have hr0 := b5 r0 hold
    simp [pendS, pendF, isHold, holds] at e1 e2 e3 e4
    constructor <;> simp [e2, e3, e4] <;> try assumption
    · omega
    · intro r hr
      rcases hmem _ hr with h | h
      · have := b5 r h; omega
      · simp at h
    · intro r hr
      rcases hmem _ hr with h | h
      · exact b6 r h
      · simp at h
    · intro a ha
      have := b7 a ha
      omega
    · intro hp
      have := b8 hp
      omega
  · -- failLoad
    rename_i hk
    simp at h; subst h
    obtain ⟨es, hmem, -⟩ := set_facts hk (.failStore s.Failures)
    have e1 := es pendS
    have e2 := es pendF
    have e3 := es isHold
    have e4 := fun j => es (holds j)
    simp [pendS, pendF, isHold, holds] at e1 e2 e3 e4
    constructor <;> simp [e1, e2, e3, e4] <;> try assumption
    · intro r hr
      rcases hmem _ hr with h | h
      · exact b5 r h
      · simp at h
    · intro r hr
      rcases hmem _ hr with h | h
      · exact b6 r h
      · simp at h; subst h; exact b4
  · -- failStore
    rename_i r0 hk
    simp at h; subst h
    obtain ⟨es, hmem, hold⟩ := set_facts hk .send
    have e1 := es pendS
    have e2 := es pendF
    have e3 := es isHold
    have e4 := fun j => es (holds j)
    have hr0 := b6 r0 hold
    simp [pendS, pendF, isHold, holds] at e1 e2 e3 e4
    constructor <;> simp [e1, e3, e4] <;> try assumption
    · omega
    · intro r hr
      rcases hmem _ hr with h | h
      · exact b5 r h
      · simp at h
    · intro r hr
      rcases hmem _ hr with h | h
      · have := b6 r h; omega
      · simp at h
    · intro hp
      have := b8 hp
      omega
  · simp at h

theorem invB_mainStep {s s1 : State} (hb : InvB s) (hcur : s.current ≤ s.total)
    (h : mainStep s = some s1) : InvB s1 := by
  have hsum := okCount_add_errCount s.events
  obtain ⟨b1, b2, b3, b4, b5, b6, b7, b8⟩ := hb
  unfold mainStep at h
  split at h
  · simp at h
  split at h
  · -- spawnLoop
    rename_i hpc
    split at h
    · split at h
      · simp at h; subst h
        constructor <;> simp [wsum_append, pendS, pendF, isHold, holds] <;> try assumption
      · simp only [Option.some.injEq] at h
        subst h
        have k1 := wsum_map_kill isHold isHold_kill (s.workers ++ [.incLoad])
        have k2 := fun j => wsum_map_kill (holds j) (holds_kill j) (s.workers ++ [.incLoad])
        have k3 := wsum_map_kill_zero pendS pendS_kill (s.workers ++ [.incLoad])
        have k4 := wsum_map_kill_zero pendF pendF_kill (s.workers ++ [.incLoad])
        simp only [wsum_append, isHold, holds, Nat.add_zero] at k1 k2
        constructor <;> simp only [k1, k2, k3, k4] <;> try assumption
        · omega
        · omega
        · intro r hr
          obtain ⟨held, hx⟩ := mem_map_kill hr
          simp at hx
        · intro r hr
          obtain ⟨held, hx⟩ := mem_map_kill hr
          simp at hx
        · intro a ha
          simp at ha
        · intro ha
          simp at ha
    · simp at h; subst h
      constructor <;> simp <;> try assumption
  · -- checkS
    rename_i hpc
    simp at h; subst h
    constructor <;> simp <;> try assumption
  · -- checkF
    rename_i a hpc
    have := b7 a hpc
    split at h
    · simp at h; subst h
      constructor <;> simp <;> try assumption
      omega
    · split at h <;>
      · simp at h; subst h
        constructor <;> simp <;> try assumption
  · simp at h

theorem invB_commMainWorker {k : Nat} {s s1 : State} (hb : InvB s)
    (h : commMainWorker k s = some s1) : InvB s1 := by
  obtain ⟨b1, b2, b3, b4, b5, b6, b7, b8⟩ := hb
  unfold commMainWorker at h
  split at h
  · rename_i hk
    split at h
    · -- spawnSend
      simp at h; subst h
      obtain ⟨es, hmem, -⟩ := set_facts hk (.hold s.current)
      have e1 := es pendS
      have e2 := es pendF
      have e3 := es isHold
      have e4 := fun j => es (holds j)
      simp [pendS, pendF, isHold, holds] at e1 e2 e3 e4
      constructor <;> simp [e1, e2] <;> try assumption
      · omega
      · intro j
        have := b2 j
        have := e4 j
        split_ifs at * <;> omega
      · intro r hr
        rcases hmem _ hr with h | h
        · exact b5 r h
        · simp at h
      · intro r hr
        rcases hmem _ hr with h | h
        · exact b6 r h
        · simp at h
    · -- sendPost
      simp at h; subst h
      obtain ⟨es, hmem, -⟩ := set_facts hk (.hold s.current)
      have e1 := es pendS
      have e2 := es pendF
      have e3 := es isHold
      have e4 := fun j => es (holds j)
      simp [pendS, pendF, isHold, holds] at e1 e2 e3 e4
      constructor <;> simp [e1, e2] <;> try assumption
      · omega
      · intro j
        have := b2 j
        have := e4 j
        split_ifs at * <;> omega
      · intro r hr
        rcases hmem _ hr with h | h
        · exact b5 r h
        · simp at h
      · intro r hr
        rcases hmem _ hr with h | h
        · exact b6 r h
        · simp at h
    · -- sendNil
      simp at h; subst h
      obtain ⟨es, hmem, -⟩ := set_facts hk .exited
      have e1 := es pendS
      have e2 := es pendF
      have e3 := es isHold
      have e4 := fun j => es (holds j)
      simp [pendS, pendF, isHold, holds] at e1 e2 e3 e4
      constructor <;> simp [e1, e2, e3, e4] <;> try assumption
      · intro r hr
        rcases hmem _ hr with h | h
        · exact b5 r h
        · simp at h
      · intro r hr
        rcases hmem _ hr with h | h
        · exact b6 r h
        · simp at h
    · simp at h
  · simp at h

theorem invB_commWorkerMain {j : Nat} {s s1 : State} (hb : InvB s)
    (h : commWorkerMain j s = some s1) : InvB s1 := by
  obtain ⟨b1, b2, b3, b4, b5, b6, b7, b8⟩ := hb
  unfold commWorkerMain at h
  split at h
  · rename_i hk
    obtain ⟨hk, hpc⟩ := hk
    simp at h; subst h
    obtain ⟨es, hmem, -⟩ := set_facts hk .incLoad
    have e1 := es pendS
    have e2 := es pendF
    have e3 := es isHold
    have e4 := fun j => es (holds j)
    simp [pendS, pendF, isHold, holds] at e1 e2 e3 e4
    constructor <;> simp [e1, e2, e3, e4] <;> try assumption
    · intro r hr
      rcases hmem _ hr with h | h
      · exact b5 r h
      · simp at h
    · intro r hr
      rcases hmem _ hr with h | h
      · exact b6 r h
      · simp at h
  · simp at h

theorem invB_commWorkerWorker {j k : Nat} {s s1 : State} (hb : InvB s)
    (h : commWorkerWorker j k s = some s1) : InvB s1 := by
  obtain ⟨b1, b2, b3, b4, b5, b6, b7, b8⟩ := hb
  unfold commWorkerWorker at h
  split at h
  · rename_i hk
    obtain ⟨hjk, hj, hk⟩ := hk
    simp at h; subst h
    have hk1 : (s.workers.set j .incLoad)[k]? = some .recv := by
      rw [List.getElem?_set_ne hjk]; exact hk
    obtain ⟨es, hmem, -⟩ := set_facts hj .incLoad
    obtain ⟨es1, hmem1, -⟩ := set_facts hk1 .exited
    have e1 := es pendS
    have e2 := es pendF
    have e3 := es isHold
    have e4 := fun j => es (holds j)
    have f1 := es1 pendS
    have f2 := es1 pendF
    have f3 := es1 isHold
    have f4 := fun j => es1 (holds j)
    simp [pendS, pendF, isHold, holds] at e1 e2 e3 e4 f1 f2 f3 f4
    constructor <;> simp [e1, e2, e3, e4, f1, f2, f3, f4] <;> try assumption
    · intro r hr
      rcases hmem1 _ hr with h | h
      · rcases hmem _ h with h | h
        · exact b5 r h
        · simp at h
      · simp at h
    · intro r hr
      rcases hmem1 _ hr with h | h
      · rcases hmem _ h with h | h
        · exact b6 r h
        · simp at h
      · simp at h
  · simp at h

theorem invA_workStep {env : Env} {posts : List Post} {dir : Str} {k : Nat} {m : Int} {n : Nat}
    {s s1 : State} (ha : InvA m n s) (h : workStep env posts dir k s = some s1) :
    InvA m n s1 := by
  obtain ⟨h1, h2, h3, h4, h5, h6⟩ := workStep_frame h
  obtain ⟨a0, a1, a2, a3, a4, a5, a6, a7, a8⟩ := ha
  constructor <;> (try simp only [h1, h2, h3, h4, h5, h6]) <;> assumption

theorem invA_mainStep {m : Int} {n : Nat} {s s1 : State} (ha : InvA m n s)
    (h : mainStep s = some s1) : InvA m n s1 := by
  obtain ⟨a0, a1, a2, a3, a4, a5, a6, a7, a8⟩ := ha
  unfold mainStep at h
  split at h
  · simp at h
  split at h
  · -- spawnLoop
    rename_i hpc
    obtain ⟨c1, c2, c3⟩ := a5 hpc
    split at h
    · rename_i hlt
      rw [a1] at hlt
      have hc : s.current < s.total := by omega
      rw [if_pos hc] at h
      simp at h; subst h
      constructor <;> (try simp) <;> try assumption
      omega
    · rename_i hlt
      simp at h; subst h
      rw [a1] at hlt
      constructor <;> (try simp) <;> try assumption
      omega
  · -- checkS
    rename_i hpc
    simp at h; subst h
    constructor <;> (try simp) <;> try assumption
    exact a7 (by simp [hpc]) (by simp [hpc])
  · -- checkF
    rename_i a hpc
    have hw := a7 (by simp [hpc]) (by simp [hpc])
    split at h
    · simp at h; subst h
      constructor <;> (try simp) <;> try assumption
    · split at h <;>
      · simp at h; subst h
        constructor <;> (try simp) <;> try assumption
        try omega
  · simp at h

theorem invA_commMainWorker {k : Nat} {m : Int} {n : Nat} {s s1 : State} (ha : InvA m n s)
    (h : commMainWorker k s = some s1) : InvA m n s1 := by
  obtain ⟨a0, a1, a2, a3, a4, a5, a6, a7, a8⟩ := ha
  unfold commMainWorker at h
  split at h
  · split at h
    · rename_i hpc
      obtain ⟨c1, c2, c3, c4⟩ := a6 hpc
      simp at h; subst h
      constructor <;> (try simp) <;> try assumption
      all_goals (try omega)
    · rename_i hpc
      have := a8 hpc
      have hw := a7 (by simp [hpc]) (by simp [hpc])
      simp at h; subst h
      constructor <;> (try simp) <;> try assumption
    · rename_i hpc
      have hw := a7 (by simp [hpc]) (by simp [hpc])
      simp at h; subst h
      constructor <;> (try simp) <;> try assumption
    · simp at h
  · simp at h

theorem invA_commWorkerMain {j : Nat} {m : Int} {n : Nat} {s s1 : State} (ha : InvA m n s)
    (h : commWorkerMain j s = some s1) : InvA m n s1 := by
  obtain ⟨a0, a1, a2, a3, a4, a5, a6, a7, a8⟩ := ha
  unfold commWorkerMain at h
  split at h
  · rename_i hk
    obtain ⟨hk, hpc⟩ := hk
    have hw := a7 (by simp [hpc]) (by simp [hpc])
    simp at h; subst h
    constructor <;> (try simp) <;> try assumption
  · simp at h

theorem invA_commWorkerWorker {j k : Nat} {m : Int} {n : Nat} {s s1 : State} (ha : InvA m n s)
    (h : commWorkerWorker j k s = some s1) : InvA m n s1 := by
  obtain ⟨a0, a1, a2, a3, a4, a5, a6, a7, a8⟩ := ha
  unfold commWorkerWorker at h
  split at h
  · simp at h; subst h
    constructor <;> (try simp) <;> try assumption
  · simp at h

/-- The invariants of a run, together. -/
theorem inv_step {env : Env} {posts : List Post} {dir : Str} {m : Int} {n : Nat}
    {s s1 : State} {a : Action} (ha : InvA m n s) (hb : InvB s)
    (h : step env posts dir s a = some s1) : InvA m n s1 ∧ InvB s1 := by
  have hcur : s.current ≤ s.total := by rw [ha.total]; exact ha.cur
  cases a with
  | tau p =>
    cases p with
    | main => exact ⟨invA_mainStep ha h, invB_mainStep hb hcur h⟩
    | worker k => exact ⟨invA_workStep ha h, invB_workStep hb hcur h⟩
  | comm p q =>
    cases p with
    | main =>
      cases q with
      | main => simp [step] at h
      | worker k => exact ⟨invA_commMainWorker ha h, invB_commMainWorker hb h⟩
    | worker j =>
      cases q with
      | main => exact ⟨invA_commWorkerMain ha h, invB_commWorkerMain hb h⟩
      | worker k => exact ⟨invA_commWorkerWorker ha h, invB_commWorkerWorker hb h⟩

theorem inv_exec {env : Env} {posts : List Post} {dir : Str} {m : Int} {n : Nat}
    (sched : List Action) : ∀ {s s1 : State}, InvA m n s → InvB s →
    exec env posts dir s sched = some s1 → InvA m n s1 ∧ InvB s1 := by
  induction sched with
  | nil =>
    intro s s1 ha hb h
    simp [exec] at h
    subst h
    exact ⟨ha, hb⟩
  | cons a as ih =>
    intro s s1 ha hb h
    simp only [exec] at h
    split at h
    · simp at h
    · rename_i s2 hs2
      obtain ⟨ha2, hb2⟩ := inv_step ha hb hs2
      exact ih ha2 hb2 h

/-- The clamped worker count of `BeginDownload`. -/
theorem BeginDownload_maxConcurrents (posts : List Post) (W : Int) (w : World) :
    (BeginDownload posts W w).maxConcurrents = min W posts.length := by
  simp only [BeginDownload]
  split_ifs with h
  · rw [min_eq_right (le_of_lt h)]
  · rw [min_eq_left (not_lt.mp h)]

theorem inv_init (posts : List Post) (W : Int) (w : World) :
    InvA (min W posts.length) posts.length (BeginDownload posts W w) ∧
    InvB (BeginDownload posts W w) := by
  refine ⟨⟨min_le_right _ _, BeginDownload_maxConcurrents posts W w, rfl, Nat.zero_le _, by simp [BeginDownload],
    ?_, by simp [BeginDownload], by simp [BeginDownload], by simp [BeginDownload]⟩, ?_⟩
  · intro _
    simp [BeginDownload]
  · constructor <;> simp [BeginDownload, wsum_nil, okCount, errCount, idxCount]

/-- Every state of a run of `BeginDownload` satisfies the invariants. -/
theorem inv_reach {env : Env} {posts : List Post} {dir : Str} {W : Int} {w : World}
    {sched : List Action} {s : State}
    (h : exec env posts dir (BeginDownload posts W w) sched = some s) :
    InvA (min W posts.length) posts.length s ∧ InvB s :=
  inv_exec sched (inv_init posts W w).1 (inv_init posts W w).2 h

theorem wsum_le_wsum {f g : WPc → Nat} (h : ∀ w, f w ≤ g w) (ws : List WPc) :
    wsum f ws ≤ wsum g ws := by
  induction ws with
  | nil => simp [wsum]
  | cons a t ih =>
    have := h a
    simp [wsum] at ih ⊢
    omega

theorem holds_le_isHold (j : Nat) (w : WPc) : holds j w ≤ isHold w := by
  cases w with
  | hold idx => simp only [holds, isHold]; split_ifs <;> omega
  | killed held =>
    cases held with
    | none => simp [holds, isHold]
    | some idx => simp only [holds, isHold]; split_ifs <;> omega
  | _ => simp [holds, isHold]

theorem count_idx_eq (j : Nat) (es : List Event) :
    (es.map Event.idx).count j = idxCount j es := by
  induction es with
  | nil => rfl
  | cons e t ih =>
    simp only [idxCount, List.map_cons, List.count_cons, List.countP_cons] at ih ⊢
    rw [ih]
    simp

theorem count_range (j n : Nat) : (List.range n).count j = if j < n then 1 else 0 := by
  rw [List.count_eq_of_nodup (List.nodup_range n)]
  simp

/-- What holds once `BeginDownload` has returned: all posts were handed out
and processed, no store is pending, and the counters are the numbers of
successful and failed `downloadPost` calls. -/
theorem returned_facts {m : Int} {n : Nat} {s : State} (ha : InvA m n s) (hb : InvB s)
    (hret : s.pc = .returned) :
    s.Successes + s.Failures = n ∧ s.current = n ∧ s.events.length = n ∧
    wsum isHold s.workers = 0 ∧ wsum pendS s.workers = 0 ∧ wsum pendF s.workers = 0 ∧
    s.Successes = okCount s.events ∧ s.Failures = errCount s.events := by
  have h1 := hb.ret hret
  have h2 := hb.succ
  have h3 := hb.fail
  have h4 := hb.handed
  have h5 := okCount_add_errCount s.events
  have h6 := ha.cur
  have h7 := ha.total
  omega

theorem returned_perm {m : Int} {n : Nat} {s : State} (ha : InvA m n s) (hb : InvB s)
    (hret : s.pc = .returned) : (s.events.map Event.idx).Perm (List.range n) := by
  obtain ⟨-, hc, -, hh, -⟩ := returned_facts ha hb hret
  rw [List.perm_iff_count]
  intro j
  rw [count_idx_eq, count_range]
  have h1 := hb.once j
  have h2 := wsum_le_wsum (holds_le_isHold j) s.workers
  rw [hc] at h1
  omega

/-- A step moves the cursor only by handing the post under it to a worker. -/
theorem step_current {env : Env} {posts : List Post} {dir : Str} {s s1 : State} {a : Action}
    (h : step env posts dir s a = some s1) :
    s1.current = s.current ∨
    (s1.current = s.current + 1 ∧
      ∃ k, a = .comm .main (.worker k) ∧ s.workers[k]? = some .recv ∧
        s1.workers[k]? = some (.hold s.current)) := by
  cases a with
  | tau p =>
    cases p with
    | main =>
      left
      simp only [step, mainStep] at h
      split at h
      · simp at h
      split at h
      · split at h
        · split at h <;> (simp at h; subst h; rfl)
        · simp at h; subst h; rfl
      · simp at h; subst h; rfl
      · split at h
        · simp at h; subst h; rfl
        · split at h <;> (simp at h; subst h; rfl)
      · simp at h
    | worker k => exact Or.inl (workStep_frame h).2.2.1
  | comm p q =>
    cases p with
    | main =>
      cases q with
      | main => simp [step] at h
      | worker k =>
        simp only [step, commMainWorker] at h
        split at h
        · rename_i hk
          have hlt : k < s.workers.length := by
            rw [List.getElem?_eq_some] at hk
            exact hk.1
          split at h
          · simp at h; subst h
            right
            exact ⟨rfl, k, rfl, hk, by simp [hlt]⟩
          · simp at h; subst h
            right
            exact ⟨rfl, k, rfl, hk, by simp [hlt]⟩
          · simp at h; subst h
            exact Or.inl rfl
          · simp at h
        · simp at h
    | worker j =>
      left
      cases q with
      | main =>
        simp only [step, commWorkerMain] at h
        split at h
        · simp at h; subst h; rfl
        · simp at h
      | worker k =>
        simp only [step, commWorkerWorker] at h
        split at h
        · simp at h; subst h; rfl
        · simp at h

/-! ## Lemmas on single steps -/

theorem exec_append {env : Env} {posts : List Post} {dir : Str} (as bs : List Action) :
    ∀ s : State, exec env posts dir s (as ++ bs) =
      (exec env posts dir s as).bind (fun s1 => exec env posts dir s1 bs) := by
  induction as with
  | nil => intro s; rfl
  | cons a t ih =>
    intro s
    simp only [List.cons_append, exec]
    cases step env posts dir s a with
    | none => rfl
    | some s1 => exact ih s1

/-- A worker that holds a post and runs alone for three steps calls
`downloadPost` on it and, unless the call panics, adds one to `Successes` when the call returned nil and
one to `Failures` otherwise, and stands at `wc <- nil`. -/
theorem work_three_steps (env : Env) (posts : List Post) (dir : Str) {s : State} {k idx : Nat}
    {p : Post} (hk : s.workers[k]? = some (.hold idx)) (hp : posts[idx]? = some p)
    (hnp : (downloadPost env p dir s.world).1 ≠ some .panic) :
    ∃ s3, exec env posts dir s [.tau (.worker k), .tau (.worker k), .tau (.worker k)] = some s3 ∧
      s3.workers[k]? = some .send ∧ s3.pc = s.pc ∧
      s3.world = (downloadPost env p dir s.world).2 ∧
      s3.events = s.events ++ [⟨k + 1, idx, (downloadPost env p dir s.world).1.isNone⟩] ∧
      (if (downloadPost env p dir s.world).1 = none
        then s3.Successes = s.Successes + 1 ∧ s3.Failures = s.Failures
        else s3.Successes = s.Successes ∧ s3.Failures = s.Failures + 1) := by
  have hlt : k < s.workers.length := by
    rw [List.getElem?_eq_some] at hk
    exact hk.1
  cases hr : (downloadPost env p dir s.world).1 with
  | none => simp [exec, step, workStep, hk, hp, hr, hlt]
  | some e =>
    have he : e ≠ DlError.panic := fun h => hnp (by rw [hr, h])
    simp [exec, step, workStep, hk, hp, hr, hlt, he]

/-! ## The counts returned by `BeginDownload` -/

/-- C1: in every interleaving of the dispatcher and its workers, whenever
`BeginDownload` has returned, the counters it returns pointers to satisfy
`Successes + Failures = N`, and the third returned value is `N`, the number
of posts. It holds for every task list and every worker count, in particular
for a non-empty list and `1 ≤ W ≤ N`; the state is any state of the run at
or after the return, so the sum is also what the caller reads later. -/
theorem BeginDownload_returns_all_counted (env : Env) (posts : List Post) (directory : Str)
    (W : Int) (w : World) (sched : List Action) (s : State)
    (hrun : exec env posts directory (BeginDownload posts W w) sched = some s)
    (hret : s.pc = .returned) :
    s.Successes + s.Failures = posts.length ∧ s.total = posts.length := by
  obtain ⟨ha, hb⟩ := inv_reach hrun
  exact ⟨(returned_facts ha hb hret).1, ha.total⟩

/-- The run `schedOne` of one post with one worker returns, with counts that
sum to one. -/
theorem BeginDownload_returns_all_counted_witness :
    exec okEnv (fivePosts.take 1) "dl".toList (BeginDownload (fivePosts.take 1) 1 emptyWorld)
        schedOne
      = some (runOf okEnv (fivePosts.take 1) "dl".toList 1 emptyWorld schedOne) ∧
    (runOf okEnv (fivePosts.take 1) "dl".toList 1 emptyWorld schedOne).pc = .returned ∧
    (runOf okEnv (fivePosts.take 1) "dl".toList 1 emptyWorld schedOne).Successes +
      (runOf okEnv (fivePosts.take 1) "dl".toList 1 emptyWorld schedOne).Failures
        = (fivePosts.take 1).length ∧
    (runOf okEnv (fivePosts.take 1) "dl".toList 1 emptyWorld schedOne).total
        = (fivePosts.take 1).length :=
  ⟨by decide, by decide,
    BeginDownload_returns_all_counted okEnv (fivePosts.take 1) "dl".toList 1 emptyWorld
      schedOne _ (by decide) (by decide)⟩

/-- C2: every task is attempted exactly once. In every state of every run:
the cursor stays within the list; a post below the cursor is held by exactly
one worker or was processed exactly once, a post at or above it by none;
a step moves the cursor only by one, when the post under it is handed to a
worker that was waiting; and once `BeginDownload` has returned the cursor is
`N`, no worker holds a post, and the processed post numbers are a
rearrangement of `0, ..., N-1`: none repeated, none skipped. -/
theorem every_task_attempted_once (env : Env) (posts : List Post) (directory : Str)
    (W : Int) (w : World) (sched : List Action) (s : State)
    (hrun : exec env posts directory (BeginDownload posts W w) sched = some s) :
    s.current ≤ posts.length ∧
    (∀ j, idxCount j s.events + wsum (holds j) s.workers = if j < s.current then 1 else 0) ∧
    (∀ a s1, step env posts directory s a = some s1 →
      s1.current = s.current ∨
      (s1.current = s.current + 1 ∧
        ∃ k, a = .comm .main (.worker k) ∧ s.workers[k]? = some .recv ∧
          s1.workers[k]? = some (.hold s.current))) ∧
    (s.pc = .returned →
      s.current = posts.length ∧ wsum isHold s.workers = 0 ∧
      (s.events.map Event.idx).Perm (List.range posts.length)) := by
  obtain ⟨ha, hb⟩ := inv_reach hrun
  refine ⟨ha.cur, hb.once, fun a s1 h => step_current h, fun hret => ?_⟩
  obtain ⟨-, hc, -, hh, -⟩ := returned_facts ha hb hret
  exact ⟨hc, hh, returned_perm ha hb hret⟩

/-- The run `schedFive` of five posts with a pool of two returns, and the
posts it processed are 0, 2, 4 (worker 1) and 1, 3 (worker 2). -/
theorem every_task_attempted_once_witness :
    exec okEnv fivePosts "dl".toList (BeginDownload fivePosts 2 emptyWorld) schedFive
      = some (runOf okEnv fivePosts "dl".toList 2 emptyWorld schedFive) ∧
    (runOf okEnv fivePosts "dl".toList 2 emptyWorld schedFive).pc = .returned ∧
    (runOf okEnv fivePosts "dl".toList 2 emptyWorld schedFive).events
      = [⟨1, 0, true⟩, ⟨2, 1, true⟩, ⟨1, 2, true⟩, ⟨2, 3, true⟩, ⟨1, 4, true⟩] ∧
    ((runOf okEnv fivePosts "dl".toList 2 emptyWorld schedFive).events.map Event.idx).Perm
      (List.range fivePosts.length) :=
  ⟨by decide, by decide, by decide,
    ((every_task_attempted_once okEnv fivePosts "dl".toList 2 emptyWorld schedFive _
      (by decide)).2.2.2 (by decide)).2.2⟩

/-! ## Files that exist already -/

/-- C7: if `os.Stat` finds a file at the destination path of a post, then
`downloadPost` returns nil and leaves the world as it was: no request is
made through `HTTPGet` and no file is written. A worker holding that post
therefore counts it as a success: its next three steps add one to
`Successes`, leave `Failures` and the world alone, and lead to `wc <- nil`. -/
theorem existing_file_is_skipped (env : Env) (post : Post) (directory : Str) (w : World)
    (hfile : statOk w (getSavePath post directory) = true) :
    downloadPost env post directory w = (none, w) ∧
    ∀ (posts : List Post) (s : State) (k idx : Nat),
      s.world = w → s.workers[k]? = some (.hold idx) → posts[idx]? = some post →
      ∃ s3, exec env posts directory s
          [.tau (.worker k), .tau (.worker k), .tau (.worker k)] = some s3 ∧
        s3.world = w ∧ s3.Successes = s.Successes + 1 ∧ s3.Failures = s.Failures ∧
        s3.events = s.events ++ [⟨k + 1, idx, true⟩] ∧ s3.workers[k]? = some .send := by
  have hd : downloadPost env post directory w = (none, w) := by
    simp [downloadPost, hfile]
  refine ⟨hd, ?_⟩
  intro posts s k idx hw hk hp
  obtain ⟨s3, e1, e2, -, e3, e4, e5⟩ := work_three_steps env posts directory hk hp
    (by rw [hw, hd]; simp)
  rw [hw, hd] at e3 e4 e5
  simp only [if_true] at e5
  exact ⟨s3, e1, e3, e5.1, e5.2, e4, e2⟩

/-- The file `dl/42.png` exists before the run: `downloadPost` on the post
with ID 42 returns nil without a request, even on a transport that always
fails. -/
theorem existing_file_is_skipped_witness :
    statOk world42 (getSavePath post42 "dl".toList) = true ∧
    downloadPost deadEnv post42 "dl".toList world42 = (none, world42) :=
  ⟨by decide, (existing_file_is_skipped deadEnv post42 "dl".toList world42 (by decide)).1⟩

/-! ## The empty task list -/

/-- A state in which the dispatcher waits in `<-wc` and every worker has
returned is stuck: no action is enabled. -/
theorem stuck_of_all_exited (env : Env) (posts : List Post) (dir : Str) (s : State)
    (hpc : s.pc = .recv) (hws : ∀ x ∈ s.workers, x = WPc.exited) (a : Action) :
    step env posts dir s a = none := by
  have hk : ∀ (k : Nat) (x : WPc), s.workers[k]? = some x → x = WPc.exited := fun k x h =>
    hws x (mem_of_getElem? h)
  cases a with
  | tau p =>
    cases p with
    | main => simp [step, mainStep, hpc]
    | worker k =>
      simp only [step, workStep]
      cases h : s.workers[k]? with
      | none => rfl
      | some x =>
        rw [hk k x h]
  | comm p q =>
    cases p with
    | main =>
      cases q with
      | main => rfl
      | worker k =>
        simp only [step, commMainWorker]
        split
        · rename_i h
          have := hk k _ h
          simp at this
        · rfl
    | worker j =>
      cases q with
      | main =>
        simp only [step, commWorkerMain]
        split
        · rename_i h
          have := hk j _ h.1
          simp at this
        · rfl
      | worker k =>
        simp only [step, commWorkerWorker]
        split
        · rename_i h
          have := hk j _ h.2.1
          simp at this
        · rfl

/-- C3 on the code: with an empty task list `BeginDownload` spawns no worker
but never returns. Its first step leaves the spawn loop for `<-wc`, where no
action is enabled any more, and no state of any run has returned. -/
theorem BeginDownload_empty_blocks (env : Env) (directory : Str) (W : Int) (w : World) :
    (∃ s0, exec env [] directory (BeginDownload [] W w) [.tau .main] = some s0 ∧
      s0.pc = .recv ∧ s0.workers = [] ∧ ∀ a, step env [] directory s0 a = none) ∧
    ∀ sched s, exec env [] directory (BeginDownload [] W w) sched = some s →
      s.pc ≠ .returned ∧ s.workers = [] := by
  have hinv : ∀ sched : List Action, ∀ s s1 : State,
      s.workers = [] → (s.pc = .spawnLoop ∨ s.pc = .recv) → s.maxConcurrents ≤ 0 →
      exec env [] directory s sched = some s1 →
      s1.workers = [] ∧ (s1.pc = .spawnLoop ∨ s1.pc = .recv) := by
    intro sched
    induction sched with
    | nil =>
      intro s s1 h1 h2 _ h
      simp [exec] at h
      subst h
      exact ⟨h1, h2⟩
    | cons a as ih =>
      intro s s1 h1 h2 h3 h
      simp only [exec] at h
      split at h
      · simp at h
      · rename_i s2 hs2
        rcases h2 with h2 | h2
        · cases a with
          | tau p =>
            cases p with
            | main =>
              have hi : ¬ ((s.i : Int) < s.maxConcurrents) := by omega
              by_cases hcr : s.crashed = true
              · simp [step, mainStep, hcr] at hs2
              · simp [step, mainStep, h2, hi, hcr] at hs2
                subst hs2
                refine ih _ s1 ?_ ?_ ?_ h
                · exact h1
                · exact Or.inr rfl
                · exact h3
            | worker k => simp [step, workStep, h1] at hs2
          | comm p q =>
            cases p with
            | main =>
              cases q with
              | main => simp [step] at hs2
              | worker k => simp [step, commMainWorker, h1] at hs2
            | worker j =>
              cases q with
              | main => simp [step, commWorkerMain, h1] at hs2
              | worker k => simp [step, commWorkerWorker, h1] at hs2
        · rw [stuck_of_all_exited env [] directory s h2 (by simp [h1]) a] at hs2
          simp at hs2
  have hm : (BeginDownload [] W w).maxConcurrents ≤ 0 := by
    rw [BeginDownload_maxConcurrents]
    exact min_le_right _ _
  constructor
  · refine ⟨{ BeginDownload [] W w with pc := .recv }, ?_, rfl, rfl, ?_⟩
    · by_cases hW : 0 < W <;> simp [exec, step, mainStep, BeginDownload, hW]
    · exact stuck_of_all_exited env [] directory _ rfl (by simp [BeginDownload])
  · intro sched s h
    obtain ⟨h1, h2⟩ := hinv sched _ s rfl (Or.inl rfl) hm h
    refine ⟨?_, h1⟩
    rcases h2 with h2 | h2 <;> simp [h2]

/-- With no post and the default of 30 workers, the first step leads to a
state that has not returned and has no worker. -/
theorem BeginDownload_empty_blocks_witness :
    exec okEnv [] "dl".toList (BeginDownload [] 30 emptyWorld) [.tau .main]
      = some (runOf okEnv [] "dl".toList 30 emptyWorld [.tau .main]) ∧
    (runOf okEnv [] "dl".toList 30 emptyWorld [.tau .main]).pc ≠ .returned ∧
    (runOf okEnv [] "dl".toList 30 emptyWorld [.tau .main]).workers = [] :=
  ⟨by decide,
    (BeginDownload_empty_blocks okEnv "dl".toList 30 emptyWorld).2 [.tau .main] _ (by decide)⟩

/-! ## Tokens and replies on the one channel -/

/-- C4 on the code: a run of two posts with two workers reaches a state in
which both posts are counted (`Successes + Failures = total`), both workers
have returned and the dispatcher waits in `<-wc`; no action is enabled
there, so `BeginDownload` never returns. -/
theorem dispatcher_deadlock :
    exec okEnv (fivePosts.take 2) "dl".toList (BeginDownload (fivePosts.take 2) 2 emptyWorld)
        schedDeadlock
      = some (runOf okEnv (fivePosts.take 2) "dl".toList 2 emptyWorld schedDeadlock) ∧
    (runOf okEnv (fivePosts.take 2) "dl".toList 2 emptyWorld schedDeadlock).pc = .recv ∧
    (runOf okEnv (fivePosts.take 2) "dl".toList 2 emptyWorld schedDeadlock).workers
      = [.exited, .exited] ∧
    (runOf okEnv (fivePosts.take 2) "dl".toList 2 emptyWorld schedDeadlock).Successes +
        (runOf okEnv (fivePosts.take 2) "dl".toList 2 emptyWorld schedDeadlock).Failures
      = (runOf okEnv (fivePosts.take 2) "dl".toList 2 emptyWorld schedDeadlock).total ∧
    ∀ a, step okEnv (fivePosts.take 2) "dl".toList
      (runOf okEnv (fivePosts.take 2) "dl".toList 2 emptyWorld schedDeadlock) a = none :=
  ⟨by decide, by decide, by decide, by decide,
    stuck_of_all_exited _ _ _ _ (by decide) (by decide)⟩

/-- C5 on the code: a run of two posts with two workers reaches a state in
which worker 1 waits for the reply to its token, the dispatcher is about to
send that reply (the nil that stops a worker) and worker 2 is sending its
own token. The token of worker 2 can then be read by worker 1, which
returns on it, and the dispatcher's reply is read by worker 2, which never
sent the token it answers. -/
theorem token_read_by_another_worker :
    exec okEnv (fivePosts.take 2) "dl".toList (BeginDownload (fivePosts.take 2) 2 emptyWorld)
        schedCross
      = some (runOf okEnv (fivePosts.take 2) "dl".toList 2 emptyWorld schedCross) ∧
    (runOf okEnv (fivePosts.take 2) "dl".toList 2 emptyWorld schedCross).pc = .sendNil ∧
    (runOf okEnv (fivePosts.take 2) "dl".toList 2 emptyWorld schedCross).workers
      = [.recv, .send] ∧
    (step okEnv (fivePosts.take 2) "dl".toList
        (runOf okEnv (fivePosts.take 2) "dl".toList 2 emptyWorld schedCross)
        (.comm (.worker 1) (.worker 0))).map (fun t => (t.pc, t.workers))
      = some (.sendNil, [.exited, .incLoad]) ∧
    (exec okEnv (fivePosts.take 2) "dl".toList
        (runOf okEnv (fivePosts.take 2) "dl".toList 2 emptyWorld schedCross)
        [.comm (.worker 1) (.worker 0), .tau (.worker 1), .tau (.worker 1),
         .comm .main (.worker 1)]).map (fun t => (t.pc, t.workers))
      = some (.recv, [.exited, .exited]) :=
  ⟨by decide, by decide, by decide, by decide, by decide⟩

/-! ## The size of the pool -/

theorem getElem?_concat_at {ws : List WPc} {k : Nat} (h : ws.length = k) (x : WPc) :
    (ws ++ [x])[k]? = some x := by
  subst h
  simp

theorem set_concat_at {ws : List WPc} {k : Nat} (h : ws.length = k) (x y : WPc) :
    (ws ++ [x]).set k y = ws ++ [y] := by
  subst h
  induction ws with
  | nil => rfl
  | cons a t ih => simp [ih]

/-- The schedule `spawnSched k` can be run as long as `k` is at most the
clamped worker count, and leaves each of the `k` workers with its first post. -/
theorem spawn_run (env : Env) (posts : List Post) (dir : Str) (W : Int) (w : World) :
    ∀ k : Nat, k ≤ (min W posts.length).toNat →
      exec env posts dir (BeginDownload posts W w) (spawnSched k)
        = some (spawnedState posts W w k) := by
  intro k
  induction k with
  | zero => intro _; rfl
  | succ k ih =>
    intro hk
    have hm := BeginDownload_maxConcurrents posts W w
    have h1 : (k : Int) < (BeginDownload posts W w).maxConcurrents := by
      rw [hm]; omega
    have h2 : k < posts.length := by
      have : min W (posts.length : Int) ≤ posts.length := min_le_right _ _
      omega
    have hlen : ((List.range k).map WPc.hold).length = k := by simp
    simp only [spawnSched]
    rw [exec_append, ih (by omega)]
    simp only [Option.bind, exec, step, mainStep, workStep, commMainWorker, spawnedState]
    simp only [BeginDownload] at h1 ⊢
    simp [h1, h2, getElem?_concat_at hlen, set_concat_at hlen, List.range_succ]

/-- C6: the pool size is the worker count clamped to the number of posts.
With `N` posts and a requested count `W`, the caller's variable holds `N`
after the clamp when `W > N` and is left at `W` when `W ≤ N`, and it keeps
that value `eff` during the whole run. In every state of every run at most
`eff` workers have been spawned, and exactly `eff` (none when `eff` is
negative) once the spawn loop is left; and the spawn loop can be left: the
schedule that lets each new worker take its first post reaches `<-wc` with
exactly `eff` workers. So `N` workers are spawned when `W > N`, and `W` when
`0 ≤ W ≤ N`. -/
theorem pool_size_clamped (env : Env) (posts : List Post) (directory : Str) (W : Int)
    (w : World) :
    (W > posts.length → (BeginDownload posts W w).maxConcurrents = posts.length ∧
      (BeginDownload posts W w).maxConcurrents.toNat = posts.length) ∧
    (W ≤ posts.length → (BeginDownload posts W w).maxConcurrents = W) ∧
    (0 ≤ W → W ≤ posts.length →
      ((BeginDownload posts W w).maxConcurrents.toNat : Int) = W) ∧
    (∀ sched s, exec env posts directory (BeginDownload posts W w) sched = some s →
      s.maxConcurrents = (BeginDownload posts W w).maxConcurrents ∧
      s.workers.length ≤ (BeginDownload posts W w).maxConcurrents.toNat ∧
      (s.pc ≠ .spawnLoop → s.pc ≠ .spawnSend →
        s.workers.length = (BeginDownload posts W w).maxConcurrents.toNat)) ∧
    (∃ s, exec env posts directory (BeginDownload posts W w)
          (spawnSched (BeginDownload posts W w).maxConcurrents.toNat ++ [.tau .main]) = some s ∧
      s.pc = .recv ∧
      s.workers.length = (BeginDownload posts W w).maxConcurrents.toNat) := by
  have hm := BeginDownload_maxConcurrents posts W w
  refine ⟨?_, ?_, ?_, ?_, ?_⟩
  · intro h
    rw [hm, min_eq_right (le_of_lt h)]
    exact ⟨rfl, Int.toNat_ofNat _⟩
  · intro h
    rw [hm, min_eq_left h]
  · intro h0 h
    rw [hm, min_eq_left h]
    exact Int.toNat_of_nonneg h0
  · intro sched s hrun
    obtain ⟨ha, -⟩ := inv_reach hrun
    rw [hm]
    refine ⟨ha.maxc, ?_, ha.spawned⟩
    by_cases h1 : s.pc = .spawnLoop
    · have := ha.spawnLoop h1
      omega
    · by_cases h2 : s.pc = .spawnSend
      · have := ha.spawnSend h2
        omega
      · exact le_of_eq (ha.spawned h1 h2)
  · rw [hm, exec_append, spawn_run env posts directory W w _ (le_refl _)]
    have hi : ¬ (((min W (posts.length : Int)).toNat : Int)
        < (spawnedState posts W w (min W (posts.length : Int)).toNat).maxConcurrents) := by
      have : (spawnedState posts W w (min W (posts.length : Int)).toNat).maxConcurrents
          = min W posts.length := hm
      rw [this]
      omega
    refine ⟨{ spawnedState posts W w (min W (posts.length : Int)).toNat with pc := .recv },
      ?_, rfl, ?_⟩
    · simp only [Option.bind, exec, step, mainStep]
      have hpc : (spawnedState posts W w (min W (posts.length : Int)).toNat).pc = .spawnLoop := rfl
      have hi2 : (spawnedState posts W w (min W (posts.length : Int)).toNat).i
          = (min W (posts.length : Int)).toNat := rfl
      have hcr : (spawnedState posts W w (min W (posts.length : Int)).toNat).crashed
          = false := rfl
      simp only [hcr, hpc, hi2, hi, if_false, Bool.false_eq_true]
    · simp [spawnedState]

/-! ## The `-limit` flag -/

/-- What the fetch loop does from an iteration with `nlimit ≥ 1` posts still
wanted. -/
theorem fetchLoop_spec (GetPosts : Nat → Int → Option (List Post)) :
    ∀ (n : Nat) (i : Nat) (nlimit : Int) (allPosts : List Post) (requested : List Int),
      nlimit.toNat = n → 1 ≤ nlimit →
      ∃ new : List Int,
        (fetchLoop GetPosts i nlimit allPosts requested).requested = requested ++ new ∧
        (∀ c ∈ new, 1 ≤ c ∧ c ≤ 100) ∧
        new.sum ≤ nlimit ∧
        ((fetchLoop GetPosts i nlimit allPosts requested).exit = .limitReached →
          new.sum = nlimit ∧
          ∃ q : Nat, new = List.replicate q 100 ++ [nlimit - 100 * q]) ∧
        ((∀ j c, ∃ ps, GetPosts j c = some ps ∧ ps ≠ []) →
          (fetchLoop GetPosts i nlimit allPosts requested).exit = .limitReached) ∧
        ((∀ j c ps, GetPosts j c = some ps → (ps.length : Int) ≤ c) →
          ((fetchLoop GetPosts i nlimit allPosts requested).allPosts.length : Int)
            ≤ allPosts.length + new.sum) := by
  intro n
  induction n using Nat.strong_induction_on with
  | _ n ih =>
    intro i nlimit allPosts requested hn h1
    rw [fetchLoop]
    by_cases hlast : nlimit - 100 ≤ 0
    · -- the last page
      simp only [hlast, if_true]
      have hc : (100 : Int) + (nlimit - 100) = nlimit := by omega
      rw [hc]
      cases hg : GetPosts i nlimit with
      | none =>
        refine ⟨[nlimit], rfl, ?_, by simp, by simp, ?_, ?_⟩
        · intro c hc; simp at hc; omega
        · intro hne
          obtain ⟨ps, h2, -⟩ := hne i nlimit
          rw [hg] at h2
          simp at h2
        · intro _; simp; omega
      | some posts =>
        by_cases he : posts.length = 0
        · simp only [he, if_true]
          refine ⟨[nlimit], rfl, ?_, by simp, by simp, ?_, ?_⟩
          · intro c hc; simp at hc; omega
          · intro hne
            obtain ⟨ps, h2, h3⟩ := hne i nlimit
            rw [hg] at h2
            simp at h2
            subst h2
            simp at he
            exact absurd he h3
          · intro _; simp; omega
        · simp only [he, if_false]
          refine ⟨[nlimit], rfl, ?_, by simp, ?_, by simp, ?_⟩
          · intro c hc; simp at hc; omega
          · intro _
            exact ⟨by simp, 0, by simp⟩
          · intro hb
            have := hb i nlimit posts hg
            simp
            omega
    · -- a full page of 100
      simp only [hlast, if_false]
      cases hg : GetPosts i 100 with
      | none =>
        refine ⟨[100], rfl, ?_, by simp; omega, by simp, ?_, ?_⟩
        · intro c hc; simp at hc; omega
        · intro hne
          obtain ⟨ps, h2, -⟩ := hne i 100
          rw [hg] at h2
          simp at h2
        · intro _; simp
      | some posts =>
        by_cases he : posts.length = 0
        · simp only [he, if_true]
          refine ⟨[100], rfl, ?_, by simp; omega, by simp, ?_, ?_⟩
          · intro c hc; simp at hc; omega
          · intro hne
            obtain ⟨ps, h2, h3⟩ := hne i 100
            rw [hg] at h2
            simp at h2
            subst h2
            simp at he
            exact absurd he h3
          · intro _; simp
        · simp only [he, if_false]
          obtain ⟨new, e1, e2, e3, e4, e5, e6⟩ :=
            ih (nlimit - 100).toNat (by omega) (i + 1) (nlimit - 100) (allPosts ++ posts)
              (requested ++ [100]) rfl (by omega)
          refine ⟨100 :: new, by rw [e1]; simp, ?_, by simp; omega, ?_, e5, ?_⟩
          · intro c hc
            simp at hc
            rcases hc with hc | hc
            · omega
            · exact e2 c hc
          · intro hx
            obtain ⟨f1, q, f2⟩ := e4 hx
            refine ⟨by simp; omega, q + 1, ?_⟩
            rw [f2, List.replicate_succ]
            simp
            omega
          · intro hb
            have h2 := e6 hb
            have h3 := hb i 100 posts hg
            simp at h2 ⊢
            omega

/-- C9: the `-limit` flag bounds the posts asked for. For every limit
`L ≥ 1`, the page sizes that the fetch loop of `main` passes to `GetPosts`
are each between 1 and 100 and sum to at most `L`; when the loop ends on
`nlimit <= 0` they sum to exactly `L` and are full pages of 100 followed
by one page of the remainder, which is how the loop ends whenever no page
comes back empty or with an error; and if every page returns at most the
number of posts asked for, at most `L` posts are collected. -/
theorem limit_bounds_fetch (GetPosts : Nat → Int → Option (List Post)) (L : Int)
    (hL : 1 ≤ L) :
    (∀ c ∈ (fetchAll GetPosts L).requested, 1 ≤ c ∧ c ≤ 100) ∧
    (fetchAll GetPosts L).requested.sum ≤ L ∧
    ((fetchAll GetPosts L).exit = .limitReached →
      (fetchAll GetPosts L).requested.sum = L ∧
      ∃ q : Nat, (fetchAll GetPosts L).requested = List.replicate q 100 ++ [L - 100 * q]) ∧
    ((∀ j c, ∃ ps, GetPosts j c = some ps ∧ ps ≠ []) →
      (fetchAll GetPosts L).exit = .limitReached) ∧
    ((∀ j c ps, GetPosts j c = some ps → (ps.length : Int) ≤ c) →
      ((fetchAll GetPosts L).allPosts.length : Int) ≤ L) := by
  obtain ⟨new, e1, e2, e3, e4, e5, e6⟩ := fetchLoop_spec GetPosts _ 1 L [] [] rfl hL
  simp only [List.nil_append] at e1
  unfold fetchAll
  rw [e1]
  refine ⟨e2, e3, e4, e5, ?_⟩
  intro hb
  have := e6 hb
  simp at this
  omega

/-- With `-limit 250` and a source whose pages are never empty, the loop asks
for 100, 100 and 50 posts. -/
theorem limit_bounds_fetch_witness :
    (1 : Int) ≤ 250 ∧
    (fetchAll (fun _ _ => some [post42]) 250).requested
      = [100, 100, 50] ∧
    (fetchAll (fun _ _ => some [post42]) 250).requested.sum ≤ 250 :=
  ⟨by decide, by simp [fetchAll, fetchLoop],
    (limit_bounds_fetch (fun _ _ => some [post42]) 250
      (by decide)).2.1⟩

/-! ## Destination paths -/

theorem digitChar_val (k : Nat) (hk : k < 10) :
    (Nat.digitChar k).toNat - 48 = k ∧ Nat.digitChar k ≠ '.' ∧ Nat.digitChar k ≠ '/' ∧
      Nat.digitChar k ≠ '-' := by
  interval_cases k <;> decide

theorem toDigitsCore_append (fuel : Nat) : ∀ (n : Nat) (ds : List Char),
    Nat.toDigitsCore 10 fuel n ds = Nat.toDigitsCore 10 fuel n [] ++ ds := by
  induction fuel with
  | zero => intro n ds; simp [Nat.toDigitsCore]
  | succ f ih =>
    intro n ds
    simp only [Nat.toDigitsCore]
    split_ifs
    · simp
    · rw [ih (n / 10) (Nat.digitChar (n % 10) :: ds), ih (n / 10) [Nat.digitChar (n % 10)]]
      simp

theorem decVal_append (xs : Str) (c : Char) :
    decVal (xs ++ [c]) = 10 * decVal xs + (c.toNat - 48) := by
  simp [decVal, List.foldl_append]

theorem decVal_toDigitsCore (fuel : Nat) : ∀ n : Nat, n < fuel →
    decVal (Nat.toDigitsCore 10 fuel n []) = n := by
  induction fuel with
  | zero => intro n h; omega
  | succ f ih =>
    intro n h
    simp only [Nat.toDigitsCore]
    have hd := (digitChar_val (n % 10) (Nat.mod_lt _ (by decide))).1
    split_ifs with h0
    · simp only [decVal, List.foldl_cons, List.foldl_nil]
      omega
    · rw [toDigitsCore_append, decVal_append, ih (n / 10) (by omega), hd]
      omega

theorem toDigitsCore_chars (fuel : Nat) : ∀ (n : Nat) (ds : List Char) (c : Char),
    c ∈ Nat.toDigitsCore 10 fuel n ds → c ∈ ds ∨ (c ≠ '.' ∧ c ≠ '/' ∧ c ≠ '-') := by
  induction fuel with
  | zero => intro n ds c h; simp [Nat.toDigitsCore] at h; exact Or.inl h
  | succ f ih =>
    intro n ds c h
    have hd := (digitChar_val (n % 10) (Nat.mod_lt _ (by decide))).2
    simp only [Nat.toDigitsCore] at h
    split_ifs at h
    · simp only [List.mem_cons] at h
      rcases h with h | h
      · subst h; exact Or.inr hd
      · exact Or.inl h
    · rcases ih _ _ c h with h | h
      · simp only [List.mem_cons] at h
        rcases h with h | h
        · subst h; exact Or.inr hd
        · exact Or.inl h
      · exact Or.inr h

theorem toDigits_chars (n : Nat) (c : Char) (h : c ∈ Nat.toDigits 10 n) :
    c ≠ '.' ∧ c ≠ '/' ∧ c ≠ '-' := by
  rcases toDigitsCore_chars _ _ _ c h with h | h
  · simp at h
  · exact h

theorem toDigits_ne_nil (n : Nat) : Nat.toDigits 10 n ≠ [] := by
  simp only [Nat.toDigits, Nat.toDigitsCore]
  split_ifs
  · simp
  · rw [toDigitsCore_append]
    simp

theorem toDigits_inj {a b : Nat} (h : Nat.toDigits 10 a = Nat.toDigits 10 b) : a = b := by
  have ha := decVal_toDigitsCore (a + 1) a (by omega)
  have hb := decVal_toDigitsCore (b + 1) b (by omega)
  simp only [Nat.toDigits] at h
  rw [h] at ha
  omega

/-- The characters of `Itoa i`: never a dot or a slash. -/
theorem Itoa_chars (i : Int) (c : Char) (h : c ∈ Itoa i) : c ≠ '.' ∧ c ≠ '/' := by
  unfold Itoa at h
  split_ifs at h
  · simp only [List.mem_cons] at h
    rcases h with h | h
    · subst h; decide
    · exact ⟨(toDigits_chars _ c h).1, (toDigits_chars _ c h).2.1⟩
  · exact ⟨(toDigits_chars _ c h).1, (toDigits_chars _ c h).2.1⟩

theorem Itoa_ne_nil (i : Int) : Itoa i ≠ [] := by
  unfold Itoa
  split_ifs
  · simp
  · exact toDigits_ne_nil _

/-- The function `strconv.Itoa` is injective. -/
theorem Itoa_inj {a b : Int} (h : Itoa a = Itoa b) : a = b := by
  unfold Itoa at h
  split_ifs at h with ha hb hb
  · simp only [List.cons.injEq, true_and] at h
    have := toDigits_inj h
    omega
  · exfalso
    have hne := toDigits_ne_nil b.natAbs
    cases hx : Nat.toDigits 10 b.natAbs with
    | nil => exact hne hx
    | cons c t =>
      rw [hx] at h
      have hc := toDigits_chars b.natAbs c (by rw [hx]; simp)
      simp only [List.cons.injEq] at h
      exact hc.2.2 h.1.symm
  · exfalso
    have hne := toDigits_ne_nil a.natAbs
    cases hx : Nat.toDigits 10 a.natAbs with
    | nil => exact hne hx
    | cons c t =>
      rw [hx] at h
      have hc := toDigits_chars a.natAbs c (by rw [hx]; simp)
      simp only [List.cons.injEq] at h
      exact hc.2.2 h.1
  · have := toDigits_inj h
    omega

theorem extLoop_shape : ∀ (rev acc : Str), (∀ c ∈ acc, c ≠ '.' ∧ c ≠ '/') →
    extLoop rev acc = [] ∨
      ∃ t, extLoop rev acc = '.' :: t ∧ ∀ c ∈ t, c ≠ '.' ∧ c ≠ '/' := by
  intro rev
  induction rev with
  | nil => intro acc _; exact Or.inl rfl
  | cons c rev ih =>
    intro acc hacc
    simp only [extLoop]
    split_ifs with h1 h2
    · exact Or.inl rfl
    · subst h2
      exact Or.inr ⟨acc, rfl, hacc⟩
    · apply ih
      intro x hx
      simp only [List.mem_cons] at hx
      rcases hx with hx | hx
      · subst hx; exact ⟨h2, h1⟩
      · exact hacc x hx

/-- The extension that `path.Ext` returns is empty, or a dot followed by
characters that are neither dots nor slashes. -/
theorem Ext_shape (path : Str) :
    Ext path = [] ∨ ∃ t, Ext path = '.' :: t ∧ ∀ c ∈ t, c ≠ '.' ∧ c ≠ '/' :=
  extLoop_shape path.reverse [] (by simp)

theorem atElemEnd_append (d e : Str) :
    atElemEnd (d ++ '/' :: e) = atElemEnd (d ++ ['/']) := by
  cases d <;> rfl

theorem dotdot_test_append (d e : Str) :
    ((d ++ '/' :: e).head? = some '.' ∧ atElemEnd (d ++ '/' :: e).tail = true) ↔
      ((d ++ ['/']).head? = some '.' ∧ atElemEnd (d ++ ['/']).tail = true) := by
  cases d with
  | nil => simp
  | cons c d =>
    simp only [List.cons_append, List.head?_cons, List.tail_cons]
    rw [atElemEnd_append d e]

/-- The loop of `path.Clean` copies an element without a slash to the end. -/
theorem cleanLoop_copy (rooted : Bool) : ∀ (t out : Str) (dotdot : Nat),
    (∀ c ∈ t, c ≠ '/') → cleanLoop rooted .copy t out dotdot = out ++ t := by
  intro t
  induction t with
  | nil => intro out dotdot _; simp [cleanLoop]
  | cons c t ih =>
    intro out dotdot h
    have hc : c ≠ '/' := h c (by simp)
    simp only [cleanLoop, hc, if_false]
    rw [ih _ _ (fun x hx => h x (by simp [hx]))]
    simp

/-- At the head of its loop, on a last element that has no slash and does not
start with a dot, `path.Clean` appends a slash if needed and the element. -/
theorem cleanLoop_real (rooted : Bool) (c : Char) (t out : Str) (dotdot : Nat)
    (hdot : c ≠ '.') (hs : ∀ x ∈ c :: t, x ≠ '/') :
    cleanLoop rooted .top (c :: t) out dotdot = withSlash rooted out ++ c :: t := by
  have hc : c ≠ '/' := hs c (by simp)
  simp only [cleanLoop, hc, hdot, if_false, false_and]
  rw [cleanLoop_copy rooted t _ _ (fun x hx => hs x (by simp [hx]))]
  simp [withSlash]

/-- Backtracking over the last element of the output buffer leaves a prefix
of the buffer that is at least `dotdot` long. -/
theorem backtrackRev_suffix : ∀ (rev : Str) (dotdot : Nat), dotdot < rev.length →
    ∃ pre, rev = pre ++ backtrackRev rev dotdot ∧ dotdot ≤ (backtrackRev rev dotdot).length := by
  intro rev
  induction rev with
  | nil => intro dotdot h; simp at h
  | cons c rest ih =>
    intro dotdot h
    simp only [backtrackRev]
    split_ifs with h1
    · obtain ⟨pre, e1, e2⟩ := ih dotdot h1.1
      exact ⟨c :: pre, by rw [List.cons_append, ← e1], e2⟩
    · refine ⟨[c], rfl, ?_⟩
      simp only [List.length_cons] at h
      omega

theorem backtrack_head (out : Str) (dotdot : Nat) (r : Str) (h : dotdot < out.length)
    (h1 : 1 ≤ dotdot) (ho : out = '/' :: r) : ∃ r1, backtrack out dotdot = '/' :: r1 := by
  obtain ⟨pre, e1, e2⟩ := backtrackRev_suffix out.reverse dotdot (by simpa using h)
  have e3 : out = (backtrackRev out.reverse dotdot).reverse ++ pre.reverse := by
    have := congrArg List.reverse e1
    simpa using this
  unfold backtrack
  cases hb : (backtrackRev out.reverse dotdot).reverse with
  | nil =>
    rw [List.reverse_eq_nil_iff] at hb
    rw [hb] at e2
    simp only [List.length_nil] at e2
    omega
  | cons x r1 =>
    rw [hb, ho] at e3
    simp only [List.cons_append, List.cons.injEq] at e3
    exact ⟨r1, by rw [← e3.1]⟩

/-- The loop of `path.Clean` on a directory followed by a slash and a last
element: when the slash is passed, the loop is at its head on the last
element, with an output buffer that depends on the directory only. -/
theorem cleanLoop_dir (rooted : Bool) : ∀ (d : Str) (mode : CleanMode) (out : Str)
    (dotdot : Nat), RootedOk rooted out dotdot →
    ∃ out1 dotdot1, RootedOk rooted out1 dotdot1 ∧
      ∀ e, cleanLoop rooted mode (d ++ '/' :: e) out dotdot
        = cleanLoop rooted .top e out1 dotdot1 := by
  intro d
  induction d with
  | nil =>
    intro mode out dotdot hinv
    cases mode <;> exact ⟨out, dotdot, hinv, fun e => by simp [cleanLoop]⟩
  | cons c d ih =>
    intro mode out dotdot hinv
    cases mode with
    | copy =>
      by_cases hc : c = '/'
      · obtain ⟨o, n, hi, he⟩ := ih .top out dotdot hinv
        exact ⟨o, n, hi, fun e => by simp [cleanLoop, hc, he]⟩
      · obtain ⟨o, n, hi, he⟩ := ih .copy (out ++ [c]) dotdot (by
          intro hr
          obtain ⟨⟨r, h1⟩, h2⟩ := hinv hr
          exact ⟨⟨r ++ [c], by rw [h1]; rfl⟩, h2⟩)
        exact ⟨o, n, hi, fun e => by simp [cleanLoop, hc, he]⟩
    | dot2 =>
      obtain ⟨o, n, hi, he⟩ := ih .top out dotdot hinv
      exact ⟨o, n, hi, fun e => by simp [cleanLoop, he]⟩
    | top =>
      by_cases hc : c = '/'
      · obtain ⟨o, n, hi, he⟩ := ih .top out dotdot hinv
        exact ⟨o, n, hi, fun e => by simp [cleanLoop, hc, he]⟩
      by_cases h2 : c = '.' ∧ atElemEnd (d ++ ['/']) = true
      · obtain ⟨o, n, hi, he⟩ := ih .top out dotdot hinv
        refine ⟨o, n, hi, fun e => ?_⟩
        rw [List.cons_append]
        simp only [cleanLoop]
        rw [atElemEnd_append d e]
        simp only [hc, h2, if_false, if_true, and_self]
        exact he e
      by_cases h3 : c = '.' ∧ (d ++ ['/']).head? = some '.' ∧
          atElemEnd (d ++ ['/']).tail = true
      · obtain ⟨hcd, h3a, h3b⟩ := h3
        subst hcd
        have h2a : atElemEnd (d ++ ['/']) = false := by simpa using h2
        by_cases h4 : dotdot < out.length
        · obtain ⟨o, n, hi, he⟩ := ih .dot2 (backtrack out dotdot) dotdot (by
            intro hr
            obtain ⟨⟨r, h1⟩, h5⟩ := hinv hr
            exact ⟨backtrack_head out dotdot r h4 h5 h1, h5⟩)
          refine ⟨o, n, hi, fun e => ?_⟩
          rw [List.cons_append]
          simp only [cleanLoop]
          rw [atElemEnd_append d e]
          simp only [dotdot_test_append d e]
          simp [h2a, h3a, h3b, h4, he]
        · by_cases h5 : rooted = false
          · subst h5
            obtain ⟨o, n, hi, he⟩ := ih .dot2
              ((if 0 < out.length then out ++ ['/'] else out) ++ ['.', '.'])
              ((if 0 < out.length then out ++ ['/'] else out) ++ ['.', '.']).length (by
                intro hr
                exact absurd hr (by decide))
            refine ⟨o, n, hi, fun e => ?_⟩
            rw [List.cons_append]
            simp only [cleanLoop]
            rw [atElemEnd_append d e]
            simp only [dotdot_test_append d e]
            simpa [h2a, h3a, h3b, h4] using he e
          · have h6 : rooted = true := by simpa using h5
            subst h6
            obtain ⟨o, n, hi, he⟩ := ih .dot2 out dotdot hinv
            refine ⟨o, n, hi, fun e => ?_⟩
            rw [List.cons_append]
            simp only [cleanLoop]
            rw [atElemEnd_append d e]
            simp only [dotdot_test_append d e]
            simpa [h2a, h3a, h3b, h4] using he e
      · obtain ⟨o, n, hi, he⟩ := ih .copy
          ((if (rooted = true ∧ out.length ≠ 1) ∨ (rooted = false ∧ out.length ≠ 0)
            then out ++ ['/'] else out) ++ [c]) dotdot (by
              intro hr
              obtain ⟨⟨r, h1⟩, h5⟩ := hinv hr
              refine ⟨?_, h5⟩
              rw [h1]
              split_ifs
              · exact ⟨r ++ ['/'] ++ [c], rfl⟩
              · exact ⟨r ++ [c], rfl⟩)
        refine ⟨o, n, hi, fun e => ?_⟩
        rw [List.cons_append]
        simp only [cleanLoop]
        rw [atElemEnd_append d e]
        simp only [dotdot_test_append d e]
        simp only [hc, h2, h3, if_false]
        exact he e

theorem takeWhile_append_stop (p : Char → Bool) : ∀ (a b : Str), (∀ x ∈ a, p x = true) →
    (b = [] ∨ ∃ y b1, b = y :: b1 ∧ p y = false) → (a ++ b).takeWhile p = a := by
  intro a
  induction a with
  | nil =>
    intro b _ hb
    rcases hb with hb | ⟨y, b1, hb, hy⟩
    · subst hb; rfl
    · subst hb; simp [List.takeWhile_cons, hy]
  | cons c a ih =>
    intro b ha hb
    have hc : p c = true := ha c (by simp)
    rw [List.cons_append, List.takeWhile_cons, hc, if_pos rfl,
      ih b (fun x hx => ha x (by simp [hx])) hb]

theorem Join_two (dir : Str) (c : Char) (t : Str) :
    Join [dir, c :: t] = Clean (if dir = [] then c :: t else dir ++ '/' :: c :: t) := by
  cases dir with
  | nil => simp [Join, joinBuf]
  | cons x d => simp [Join, joinBuf]

theorem Clean_rooted (t : Str) :
    Clean ('/' :: t) =
      if (cleanLoop true .top t ['/'] 1).length = 0 then ['.']
      else cleanLoop true .top t ['/'] 1 := by
  simp [Clean]

theorem Clean_unrooted (x : Char) (t : Str) (hx : x ≠ '/') :
    Clean (x :: t) =
      if (cleanLoop false .top (x :: t) [] 0).length = 0 then ['.']
      else cleanLoop false .top (x :: t) [] 0 := by
  simp [Clean, hx]

theorem withSlash_rooted (r : Str) : ∃ q, withSlash true ('/' :: r) = q ++ ['/'] := by
  cases r with
  | nil => exact ⟨[], by simp [withSlash]⟩
  | cons y r => exact ⟨'/' :: y :: r, by simp [withSlash]⟩

theorem withSlash_unrooted (o : Str) :
    withSlash false o = [] ∨ ∃ q, withSlash false o = q ++ ['/'] := by
  cases o with
  | nil => exact Or.inl (by simp [withSlash])
  | cons y r => exact Or.inr ⟨y :: r, by simp [withSlash]⟩

/-- The path that `path.Join` returns for a directory and a last element
that has no slash and does not start with a dot: the element, after a part
that depends on the directory only and is empty or ends with a slash. -/
theorem Join_dir_elem (dir : Str) :
    ∃ pre : Str, (pre = [] ∨ ∃ q, pre = q ++ ['/']) ∧
      ∀ (c : Char) (t : Str), c ≠ '.' → (∀ x ∈ c :: t, x ≠ '/') →
        Join [dir, c :: t] = pre ++ c :: t := by
  cases dir with
  | nil =>
    refine ⟨[], Or.inl rfl, fun c t hdot hs => ?_⟩
    have hc : c ≠ '/' := hs c (by simp)
    rw [Join_two, if_pos rfl, Clean_unrooted c t hc, cleanLoop_real false c t [] 0 hdot hs]
    simp [withSlash]
  | cons x d =>
    by_cases hx : x = '/'
    · subst hx
      obtain ⟨o, n, hi, he⟩ := cleanLoop_dir true d .top ['/'] 1 (fun _ => ⟨⟨[], rfl⟩, le_refl 1⟩)
      obtain ⟨⟨r, hr⟩, -⟩ := hi rfl
      subst hr
      refine ⟨withSlash true ('/' :: r), Or.inr (withSlash_rooted r), fun c t hdot hs => ?_⟩
      rw [Join_two, if_neg (by simp), List.cons_append, Clean_rooted, he (c :: t),
        cleanLoop_real true c t _ n hdot hs]
      simp
    · obtain ⟨o, n, hi, he⟩ := cleanLoop_dir false (x :: d) .top [] 0
        (fun h => absurd h (by decide))
      refine ⟨withSlash false o, withSlash_unrooted o, fun c t hdot hs => ?_⟩
      have h1 := he (c :: t)
      rw [List.cons_append] at h1
      rw [Join_two, if_neg (by simp), List.cons_append, Clean_unrooted x _ hx, h1,
        cleanLoop_real false c t o n hdot hs]
      simp

/-- The last element of a destination path starts with a character of
`Itoa`, so not with a dot, and has no slash. -/
theorem saveName_real (post : Post) :
    ∃ c t, Itoa post.ID ++ Ext post.FileURL = c :: t ∧ c ≠ '.' ∧ ∀ x ∈ c :: t, x ≠ '/' := by
  have hne := Itoa_ne_nil post.ID
  have hch := Itoa_chars post.ID
  cases hi : Itoa post.ID with
  | nil => exact absurd hi hne
  | cons c t =>
    rw [hi] at hch
    refine ⟨c, t ++ Ext post.FileURL, rfl, (hch c (by simp)).1, ?_⟩
    intro x hx
    rw [← List.cons_append, List.mem_append] at hx
    rcases hx with hx | hx
    · exact (hch x hx).2
    · rcases Ext_shape post.FileURL with he | ⟨u, he, hu⟩
      · rw [he] at hx; simp at hx
      · rw [he] at hx
        simp only [List.mem_cons] at hx
        rcases hx with hx | hx
        · subst hx; decide
        · exact (hu x hx).2

/-- The ID can be read back from the last element of a destination path: the
digits before its first dot are those of `Itoa`. -/
theorem saveName_takeWhile (post : Post) :
    (Itoa post.ID ++ Ext post.FileURL).takeWhile (fun c => c ≠ '.') = Itoa post.ID := by
  apply takeWhile_append_stop
  · intro x hx
    simpa using (Itoa_chars post.ID x hx).1
  · rcases Ext_shape post.FileURL with he | ⟨u, he, -⟩
    · exact Or.inl he
    · exact Or.inr ⟨'.', u, he, by simp⟩

theorem lastElem_append (pre e : Str) (hpre : pre = [] ∨ ∃ q, pre = q ++ ['/'])
    (he : ∀ x ∈ e, x ≠ '/') : lastElem (pre ++ e) = e := by
  unfold lastElem
  rw [List.reverse_append, takeWhile_append_stop, List.reverse_reverse]
  · intro x hx
    simpa using he x (by simpa using hx)
  · rcases hpre with h | ⟨q, h⟩
    · subst h; exact Or.inl rfl
    · subst h
      exact Or.inr ⟨'/', q.reverse, by simp, by simp⟩

/-- C10: destination paths do not collide across posts. For every output
directory, two posts with different IDs get different paths from
`getSavePath`, whatever their file URLs. The path is the directory part (a
string that depends on the directory only and is empty or ends with a
slash) followed by `Itoa ID` and `path.Ext` of the file URL; that extension
has no slash and no dot other than its leading one; so the last path
element is `Itoa ID` followed by the extension, its part before the first
dot is `Itoa ID`, and equal last elements give equal IDs. -/
theorem getSavePath_no_collision (directory : Str) (p q : Post) (hid : p.ID ≠ q.ID) :
    getSavePath p directory ≠ getSavePath q directory ∧
    (∃ pre : Str, (pre = [] ∨ ∃ r, pre = r ++ ['/']) ∧
      ∀ post : Post,
        getSavePath post directory = pre ++ (Itoa post.ID ++ Ext post.FileURL)) ∧
    (∀ url : Str, (∀ c ∈ Ext url, c ≠ '/') ∧
      (Ext url = [] ∨ ∃ t, Ext url = '.' :: t ∧ ∀ c ∈ t, c ≠ '.')) ∧
    (∀ post : Post,
      lastElem (getSavePath post directory) = Itoa post.ID ++ Ext post.FileURL ∧
      (lastElem (getSavePath post directory)).takeWhile (fun c => c ≠ '.') = Itoa post.ID) ∧
    lastElem (getSavePath p directory) ≠ lastElem (getSavePath q directory) := by
  obtain ⟨pre, hpre, hjoin⟩ := Join_dir_elem directory
  have hpath : ∀ post : Post,
      getSavePath post directory = pre ++ (Itoa post.ID ++ Ext post.FileURL) := by
    intro post
    obtain ⟨c, t, h1, h2, h3⟩ := saveName_real post
    unfold getSavePath
    rw [h1]
    exact hjoin c t h2 h3
  have hlast : ∀ post : Post,
      lastElem (getSavePath post directory) = Itoa post.ID ++ Ext post.FileURL := by
    intro post
    obtain ⟨c, t, h1, -, h3⟩ := saveName_real post
    rw [hpath post]
    apply lastElem_append _ _ hpre
    rw [h1]
    exact h3
  have hne : lastElem (getSavePath p directory) ≠ lastElem (getSavePath q directory) := by
    intro h
    rw [hlast p, hlast q] at h
    have h1 := congrArg (List.takeWhile (fun c => decide (c ≠ '.'))) h
    rw [saveName_takeWhile p, saveName_takeWhile q] at h1
    exact hid (Itoa_inj h1)
  refine ⟨fun h => hne (by rw [h]), ⟨pre, hpre, hpath⟩, ?_, ?_, hne⟩
  · intro url
    rcases Ext_shape url with he | ⟨t, he, ht⟩
    · rw [he]
      exact ⟨by simp, Or.inl rfl⟩
    · rw [he]
      refine ⟨?_, Or.inr ⟨t, rfl, fun c hc => (ht c hc).1⟩⟩
      intro c hc
      simp only [List.mem_cons] at hc
      rcases hc with hc | hc
      · subst hc; decide
      · exact (ht c hc).2
  · intro post
    refine ⟨hlast post, ?_⟩
    rw [hlast post]
    exact saveName_takeWhile post

/-- The posts with the IDs 42 and 43 and the same file URL get the paths
`dl/42.png` and `dl/43.png`. -/
theorem getSavePath_no_collision_witness :
    post42.ID ≠ post43.ID ∧
    getSavePath post42 "dl".toList = "dl/42.png".toList ∧
    getSavePath post43 "dl".toList = "dl/43.png".toList ∧
    getSavePath post42 "dl".toList ≠ getSavePath post43 "dl".toList :=
  ⟨by decide, by decide, by decide,
    (getSavePath_no_collision "dl".toList post42 post43 (by decide)).1⟩

/-! ## Failed fetches -/

/-- After a panic the process is gone: with the dispatcher stopped and every
worker killed, no action is enabled. -/
theorem stuck_of_crashed (env : Env) (posts : List Post) (dir : Str) (s : State)
    (hcr : s.crashed = true) (hws : ∀ x ∈ s.workers, isKilled x = true)
    (a : Action) : step env posts dir s a = none := by
  have hk : ∀ (k : Nat) (x : WPc), s.workers[k]? = some x → ∃ held, x = WPc.killed held := by
    intro k x h
    have hx := hws x (mem_of_getElem? h)
    cases x <;> simp [isKilled] at hx
    exact ⟨_, rfl⟩
  cases a with
  | tau p =>
    cases p with
    | main => simp [step, mainStep, hcr]
    | worker k =>
      simp only [step, workStep]
      cases h : s.workers[k]? with
      | none => rfl
      | some x =>
        obtain ⟨held, hx⟩ := hk k x h
        rw [hx]
  | comm p q =>
    cases p with
    | main =>
      cases q with
      | main => rfl
      | worker k =>
        simp only [step, commMainWorker]
        split
        · rename_i h
          obtain ⟨held, hx⟩ := hk k _ h
          simp at hx
        · rfl
    | worker j =>
      cases q with
      | main =>
        simp only [step, commWorkerMain]
        split
        · rename_i h
          obtain ⟨held, hx⟩ := hk j _ h.1
          simp at hx
        · rfl
      | worker k =>
        simp only [step, commWorkerWorker]
        split
        · rename_i h
          obtain ⟨held, hx⟩ := hk j _ h.2.1
          simp at hx
        · rfl

/-- Once `BeginDownload` has returned, `Successes` is the number of
`downloadPost` calls that returned nil, `Failures` the number that returned
an error, and each post was processed once. -/
theorem counts_exact_at_return (env : Env) (posts : List Post) (directory : Str)
    (W : Int) (w : World) (sched : List Action) (s : State)
    (hrun : exec env posts directory (BeginDownload posts W w) sched = some s)
    (hret : s.pc = .returned) :
    s.Successes = okCount s.events ∧ s.Failures = errCount s.events ∧
    (s.events.map Event.idx).Perm (List.range posts.length) := by
  obtain ⟨ha, hb⟩ := inv_reach hrun
  obtain ⟨-, -, -, -, -, -, hs, hf⟩ := returned_facts ha hb hret
  exact ⟨hs, hf, returned_perm ha hb hret⟩

/-- The run `schedThree` of three posts, the fetch of the second one forced
to fail, returns with two successes and one failure. -/
theorem three_posts_one_failure :
    exec failEnv (fivePosts.take 3) "dl".toList (BeginDownload (fivePosts.take 3) 3 emptyWorld)
        schedThree
      = some (runOf failEnv (fivePosts.take 3) "dl".toList 3 emptyWorld schedThree) ∧
    (runOf failEnv (fivePosts.take 3) "dl".toList 3 emptyWorld schedThree).pc = .returned ∧
    (runOf failEnv (fivePosts.take 3) "dl".toList 3 emptyWorld schedThree).events
      = [⟨2, 1, false⟩, ⟨1, 0, true⟩, ⟨3, 2, true⟩] ∧
    (runOf failEnv (fivePosts.take 3) "dl".toList 3 emptyWorld schedThree).Successes = 2 ∧
    (runOf failEnv (fivePosts.take 3) "dl".toList 3 emptyWorld schedThree).Failures = 1 :=
  ⟨by decide, by decide, by decide, by decide, by decide⟩

/-- C8 on the code: a failed fetch can go uncounted, and a fetch can be
fatal. In the run `schedLost` of two posts with two workers both calls of
`downloadPost` return an error, the two `state.Failures++` overlap, and
`Failures` ends at 1 for two failed posts; continued as `schedLostStuck`,
both workers are stopped and the dispatcher waits in `<-wc` with
`Successes + Failures = 1`, no action enabled, so `BeginDownload` never
returns. In the run `schedPanic` the file URL `%zz` of the post does not
parse, `HTTPGet` panics inside the worker's call of `downloadPost`, and the
process ends with the post counted neither as a success nor as a failure. -/
theorem failed_fetch_lost_or_fatal :
    (exec deadEnv (fivePosts.take 2) "dl".toList (BeginDownload (fivePosts.take 2) 2 emptyWorld)
        schedLost
      = some (runOf deadEnv (fivePosts.take 2) "dl".toList 2 emptyWorld schedLost) ∧
    (runOf deadEnv (fivePosts.take 2) "dl".toList 2 emptyWorld schedLost).events
      = [⟨1, 0, false⟩, ⟨2, 1, false⟩] ∧
    (runOf deadEnv (fivePosts.take 2) "dl".toList 2 emptyWorld schedLost).workers
      = [.send, .send] ∧
    (runOf deadEnv (fivePosts.take 2) "dl".toList 2 emptyWorld schedLost).Successes = 0 ∧
    (runOf deadEnv (fivePosts.take 2) "dl".toList 2 emptyWorld schedLost).Failures = 1) ∧
    (exec deadEnv (fivePosts.take 2) "dl".toList (BeginDownload (fivePosts.take 2) 2 emptyWorld)
        schedLostStuck
      = some (runOf deadEnv (fivePosts.take 2) "dl".toList 2 emptyWorld schedLostStuck) ∧
    (runOf deadEnv (fivePosts.take 2) "dl".toList 2 emptyWorld schedLostStuck).pc = .recv ∧
    (runOf deadEnv (fivePosts.take 2) "dl".toList 2 emptyWorld schedLostStuck).workers
      = [.exited, .exited] ∧
    (runOf deadEnv (fivePosts.take 2) "dl".toList 2 emptyWorld schedLostStuck).Successes = 0 ∧
    (runOf deadEnv (fivePosts.take 2) "dl".toList 2 emptyWorld schedLostStuck).Failures = 1 ∧
    (runOf deadEnv (fivePosts.take 2) "dl".toList 2 emptyWorld schedLostStuck).total = 2 ∧
    ∀ a, step deadEnv (fivePosts.take 2) "dl".toList
      (runOf deadEnv (fivePosts.take 2) "dl".toList 2 emptyWorld schedLostStuck) a = none) ∧
    ((downloadPost okEnv badPost "dl".toList emptyWorld).1 = some .panic ∧
    exec okEnv [badPost] "dl".toList (BeginDownload [badPost] 1 emptyWorld) schedPanic
      = some (runOf okEnv [badPost] "dl".toList 1 emptyWorld schedPanic) ∧
    (runOf okEnv [badPost] "dl".toList 1 emptyWorld schedPanic).crashed = true ∧
    (runOf okEnv [badPost] "dl".toList 1 emptyWorld schedPanic).workers = [.killed (some 0)] ∧
    (runOf okEnv [badPost] "dl".toList 1 emptyWorld schedPanic).events = [] ∧
    (runOf okEnv [badPost] "dl".toList 1 emptyWorld schedPanic).Successes = 0 ∧
    (runOf okEnv [badPost] "dl".toList 1 emptyWorld schedPanic).Failures = 0 ∧
    ∀ a, step okEnv [badPost] "dl".toList
      (runOf okEnv [badPost] "dl".toList 1 emptyWorld schedPanic) a = none) :=
  ⟨⟨by decide, by decide, by decide, by decide, by decide⟩,
    ⟨by decide, by decide, by decide, by decide, by decide, by decide,
      stuck_of_all_exited _ _ _ _ (by decide) (by decide)⟩,
    ⟨by decide, by decide, by decide, by decide, by decide, by decide, by decide,
      stuck_of_crashed _ _ _ _ (by decide) (by decide)⟩⟩

end R34dl
